import Mathlib

/-!
Verification development for the Zyzzyva lexicon engine (WordEngine.cpp).

The definitions below are a shallow embedding of `WordEngine.cpp`.  Strings are
Lean `String`s (sequences of `Char`); Qt string helpers (`simplified`,
`section`, `split`, `left`, `right`, `toUpper`) are re-implemented on the
character lists with the same semantics for the Unicode BMP subset the engine
manipulates.  The word graph (`WordGraph`), `Auxil`, `LetterBag` and
`SearchSpec::optimize` are not part of the source excerpt; they are either
abstracted as parameters of the environment, or modelled from the spec where a
concrete definition is required (each such definition says so in its doc
comment).
-/

namespace Zyzzyva

/-- Uppercase a string character by character (QString::toUpper on the
letters the engine manipulates). -/
def toUpperS (s : String) : String := ⟨s.data.map Char.toUpper⟩

/-- Character comparison by code point, as QChar comparison inside
QString::operator< works. -/
def charLtB (a b : Char) : Bool := decide (a.toNat < b.toNat)

/-- Lexicographic comparison of character sequences, as
QString::operator< compares strings code point by code point. -/
def charListLt : List Char → List Char → Bool
  | [], [] => false
  | [], _ :: _ => true
  | _ :: _, [] => false
  | a :: as, b :: bs =>
    if charLtB a b then true else if charLtB b a then false else charListLt as bs

/-- QString ordering used by `std::set<QString>` and `QMap<QString, ...>`. -/
def strLt (a b : String) : Bool := charListLt a.data b.data

/-- Insertion into a `std::set<QString>` modelled as a strictly sorted list:
an already present element is not duplicated. -/
def setInsert (w : String) : List String → List String
  | [] => [w]
  | x :: xs =>
    if strLt w x then w :: x :: xs
    else if w = x then x :: xs
    else x :: setInsert w xs

/-- QString::split on a single separator character, keeping empty parts
(the Qt default). -/
def splitOnCharAux (sep : Char) : List Char → List Char → List String
  | [], cur => [⟨cur.reverse⟩]
  | c :: rest, cur =>
    if c = sep then ⟨cur.reverse⟩ :: splitOnCharAux sep rest []
    else splitOnCharAux sep rest (c :: cur)

/-- QString::split (QChar sep) with Qt's default KeepEmptyParts behavior. -/
def splitOnChar (sep : Char) (s : String) : List String := splitOnCharAux sep s.data []

/-- Split a character list at every whitespace character (helper for
QString::simplified). -/
def splitWSAux : List Char → List Char → List (List Char)
  | [], cur => [cur.reverse]
  | c :: rest, cur =>
    if c.isWhitespace then cur.reverse :: splitWSAux rest []
    else splitWSAux rest (c :: cur)

/-- Join non-empty words with single spaces (helper for QString::simplified). -/
def joinSpaces : List (List Char) → List Char
  | [] => []
  | [w] => w
  | w :: ws => w ++ ' ' :: joinSpaces ws

/-- QString::simplified: trim leading/trailing whitespace and collapse internal
whitespace runs to single spaces. -/
def simplified (s : String) : String :=
  ⟨joinSpaces ((splitWSAux s.data []).filter (fun w => w ≠ []))⟩

/-- Join a list of strings with single spaces. -/
def joinWithSpace : List String → String
  | [] => ""
  | [w] => w
  | w :: ws => w ++ " " ++ joinWithSpace ws

/-- QString::section (QChar ' ', 0, 0): the text before the first space. -/
def sectionFirst (s : String) : String := (splitOnChar ' ' s).headD ""

/-- QString::section (QChar ' ', 1): everything after the first space. -/
def sectionRest (s : String) : String := joinWithSpace ((splitOnChar ' ' s).drop 1)

/-- Sorted insertion of a character (helper for the alphagram). -/
def insertChar (c : Char) : List Char → List Char
  | [] => [c]
  | d :: ds => if charLtB c d || decide (c = d) then c :: d :: ds else d :: insertChar c ds

/-- Sort a character list ascending by code point. -/
def sortChars : List Char → List Char
  | [] => []
  | c :: cs => insertChar c (sortChars cs)

/-- Modelled from the spec: `Auxil::getAlphagram` (source not in the excerpt) —
the letters of a word sorted into canonical ascending order (§3: "the letters
of a Word sorted into a fixed canonical order (e.g., ascending)"). -/
def getAlphagram (w : String) : String := ⟨sortChars w.data⟩

/-- Word character for the QRegExp `\w` class (ASCII letters, digits,
underscore). -/
def isWordChar (c : Char) : Bool := c.isAlphanum || c = '_'

/-!  Search data model.  `SearchCondition`, `SearchSpec` and `SearchSet` are
declared in headers outside the source excerpt; they are modelled from the
spec (§3: a tagged variant over condition kinds, each carrying a negation
flag, a string payload and an integer min/max range; a spec is an ordered
condition list plus a conjunction flag).  Only the constructors consumed by
`WordEngine.cpp` are distinguished; every other kind falls into the catch-all
`OtherType`, matching the code's `default:` branches. -/

/-- Modelled from the spec: `SearchCondition::Type` — the condition kinds
`WordEngine.cpp` distinguishes, plus a catch-all for the rest. -/
inductive CondType where
  | PatternMatch
  | InWordList
  | BelongToGroup
  | NumAnagrams
  | ProbabilityOrder
  | PrefixKind
  | SuffixKind
  | OtherType
deriving DecidableEq

/-- Modelled from the spec: a single `SearchCondition` — a kind tag, a
negation flag, a string payload and an integer range. -/
structure SearchCondition where
  type : CondType
  negated : Bool
  stringValue : String
  minValue : Int
  maxValue : Int
deriving DecidableEq

/-- Modelled from the spec: a `SearchSpec` — an ordered list of conditions
plus a conjunction flag. -/
structure SearchSpec where
  conjunction : Bool
  conditions : List SearchCondition
deriving DecidableEq

/-- Modelled from the spec: the `SearchSet` enumeration — the named word sets
`WordEngine::isSetMember` distinguishes. -/
inductive SearchSet where
  | SetHookWords
  | SetFrontHooks
  | SetBackHooks
  | SetTypeOneSevens
  | SetTypeOneEights
  | SetEightsFromSevenLetterStems
  | SetNewInOwl2
  | UnknownSearchSet
deriving DecidableEq

/-- The engine state a query runs against.  `containsWord` and `graphSearch`
abstract the `WordGraph` (not in the source excerpt); `numAnagramsMap` is the
`QMap<QString, int>` with its default value 0 for absent keys;
`stemAlphagrams` is the `std::map<int, std::set<QString>>` of stem alphagram
buckets (a bucket is a sorted duplicate-free list); `numCombinations`
abstracts `LetterBag::getNumCombinations`; `stringToSearchSet` abstracts
`Auxil::stringToSearchSet`; `newInOwl2String` abstracts the word string read
by `getNewInOwl2String`. -/
structure Env where
  containsWord : String → Bool
  graphSearch : SearchSpec → List String
  numAnagramsMap : String → Int
  stemAlphagrams : Nat → Option (List String)
  numCombinations : String → Nat
  stringToSearchSet : String → SearchSet
  newInOwl2String : String

/-- WordEngine::isAcceptable — membership in the word graph. -/
def isAcceptable (e : Env) (word : String) : Bool := e.containsWord word

/-- WordEngine::numAnagrams — the anagram count stored for the word's
alphagram (0 when the alphagram is absent, which the default value of the
map model already provides). -/
def numAnagrams (e : Env) (word : String) : Int :=
  e.numAnagramsMap (getAlphagram word)

/-- The local MAX_ANAGRAMS constant of WordEngine::nonGraphSearch. -/
def MAX_ANAGRAMS : Int := 65535

/-- The per-condition word set of WordEngine::nonGraphSearch: split the
InWordList payload on spaces and keep the acceptable words, collected into a
`std::set`. -/
def makeWordSet (e : Env) (payload : String) : List String :=
  (splitOnChar ' ' payload).foldl
    (fun acc w => if isAcceptable e w then setInsert w acc else acc) []

/-- The conjunction step of WordEngine::nonGraphSearch: the members of
`wordSet` that are already in `final`. -/
def intersectSet (wordSet final : List String) : List String :=
  wordSet.foldl (fun acc w => if final.contains w then setInsert w acc else acc) []

/-- The disjunction step of WordEngine::nonGraphSearch: insert every member of
`wordSet` into `final`. -/
def unionSet (wordSet final : List String) : List String :=
  wordSet.foldl (fun acc w => setInsert w acc) final

/-- The condition loop of WordEngine::nonGraphSearch.  Carries the admissible
anagram range, the count of InWordList conditions folded so far and the
accumulated word set; `none` models the early `return wordList` exits (empty
overlap of anagram ranges, empty conjunction). -/
def ngsLoop (e : Env) (conj : Bool) :
    List SearchCondition → Int → Int → Nat → List String →
    Option (Int × Int × List String)
  | [], mn, mx, _, final => some (mn, mx, final)
  | c :: rest, mn, mx, condNum, final =>
    match c.type with
    | CondType.NumAnagrams =>
      if c.minValue > mx ∨ c.maxValue < mn then none
      else ngsLoop e conj rest c.minValue c.maxValue condNum final
    | CondType.InWordList =>
      if condNum = 0 then
        ngsLoop e conj rest mn mx (condNum + 1) (makeWordSet e c.stringValue)
      else if conj then
        if intersectSet (makeWordSet e c.stringValue) final = [] then none
        else ngsLoop e conj rest mn mx (condNum + 1)
          (intersectSet (makeWordSet e c.stringValue) final)
      else ngsLoop e conj rest mn mx (condNum + 1)
        (unionSet (makeWordSet e c.stringValue) final)
    | _ => ngsLoop e conj rest mn mx condNum final

/-- WordEngine::nonGraphSearch — fold the conditions, then filter the
accumulated set by the anagram range when that range is non-trivial and the
set non-empty, and return the set as a (sorted) list. -/
def nonGraphSearch (e : Env) (spec : SearchSpec) : List String :=
  match ngsLoop e spec.conjunction spec.conditions 0 MAX_ANAGRAMS 0 [] with
  | none => []
  | some (mn, mx, final) =>
    if ¬ final = [] ∧ (0 < mn ∨ mx < MAX_ANAGRAMS) then
      final.foldl
        (fun acc w =>
          if mn ≤ e.numAnagramsMap (getAlphagram w) ∧
             e.numAnagramsMap (getAlphagram w) ≤ mx then setInsert w acc
          else acc) []
    else final

/-- QString::left — the n leftmost characters; the whole string when n is
negative or at least the length. -/
def qleft (s : String) (n : Int) : String :=
  if n < 0 ∨ (s.data.length : Int) ≤ n then s else ⟨s.data.take n.toNat⟩

/-- QString::right — the n rightmost characters; the whole string when n is
negative or at least the length. -/
def qright (s : String) (n : Int) : String :=
  if n < 0 ∨ (s.data.length : Int) ≤ n then s
  else ⟨s.data.drop (s.data.length - n.toNat)⟩

/-- Character at an index is a word character (false out of range). -/
def charAtIsWord (cs : List Char) (i : Nat) : Bool :=
  match cs.drop i with
  | c :: _ => isWordChar c
  | [] => false

/-- QRegExp `\b`: position p lies between a word character and a non-word
character (the edges of the string count as non-word). -/
def wordBoundary (cs : List Char) (p : Nat) : Bool :=
  (decide (0 < p) && charAtIsWord cs (p - 1)) != charAtIsWord cs p

/-- The needle occurs as a sublist starting at index i. -/
def sublistAt (cs needle : List Char) (i : Nat) : Bool :=
  needle.isPrefixOf (cs.drop i)

/-- QString::contains (QRegExp ("\\b" + needle + "\\b")): the needle occurs
with a word boundary on each side. -/
def regexContainsWord (hay needle : String) : Bool :=
  (List.range (hay.data.length + 1)).any
    (fun i => sublistAt hay.data needle.data i && wordBoundary hay.data i &&
      wordBoundary hay.data (i + needle.data.length))

/-- The inner comparison loop of the SetTypeOneEights case of
WordEngine::isSetMember: walk the word's alphagram against a stem alphagram,
advancing the stem on a match and counting a missing letter otherwise.  The
loop's `if (missing > 2) break` is folded into the mismatch arm; when
`missing` already exceeds 2 every branch returns false, exactly as the broken
loop does. -/
def typeOneEightWalk : List Char → List Char → Nat → Bool
  | _, [], missing => decide (missing ≤ 2)
  | [], _ :: _, missing => decide (missing ≤ 2)
  | a :: as, s :: ss, missing =>
    if a = s then typeOneEightWalk as ss missing
    else if 2 < missing + 1 then false
    else typeOneEightWalk as (s :: ss) (missing + 1)

/-- The one-letter-deletion stem lookup shared by the SetTypeOneSevens and
SetEightsFromSevenLetterStems cases: some deletion position of the word's
alphagram yields a stored stem alphagram (`agram.left (i) + agram.right
(length - i - 1)`). -/
def deletionHit (alphaset : List String) (agram : String) : Bool :=
  (List.range agram.data.length).any
    (fun i => alphaset.contains ⟨agram.data.take i ++ agram.data.drop (i + 1)⟩)

/-- WordEngine::isSetMember — membership of an (assumed acceptable) word in a
named search set. -/
def isSetMember (e : Env) (word : String) (ss : SearchSet) : Bool :=
  match ss with
  | SearchSet.SetHookWords =>
    isAcceptable e (qleft word ((word.data.length : Int) - 1)) ||
    isAcceptable e (qright word ((word.data.length : Int) - 1))
  | SearchSet.SetFrontHooks =>
    isAcceptable e (qright word ((word.data.length : Int) - 1))
  | SearchSet.SetBackHooks =>
    isAcceptable e (qleft word ((word.data.length : Int) - 1))
  | SearchSet.SetTypeOneSevens =>
    if word.data.length = 7 then
      match e.stemAlphagrams (word.data.length - 1) with
      | none => false
      | some alphaset => deletionHit alphaset (getAlphagram word)
    else false
  | SearchSet.SetTypeOneEights =>
    if word.data.length = 8 then
      match e.stemAlphagrams (word.data.length - 2) with
      | none => false
      | some alphaset =>
        alphaset.any (fun sa => typeOneEightWalk (getAlphagram word).data sa.data 0)
    else false
  | SearchSet.SetEightsFromSevenLetterStems =>
    if word.data.length = 8 then
      match e.stemAlphagrams (word.data.length - 1) with
      | none => false
      | some alphaset => deletionHit alphaset (getAlphagram word)
    else false
  | _ => false

/-- One case of WordEngine::matchesConditions: whether the word passes a
single special postcondition (conditions the graph search cannot test). -/
def matchesCondition (e : Env) (wordUpper : String) (c : SearchCondition) : Bool :=
  match c.type with
  | CondType.PrefixKind =>
    !((!(isAcceptable e (c.stringValue ++ wordUpper))) != c.negated)
  | CondType.SuffixKind =>
    !((!(isAcceptable e (wordUpper ++ c.stringValue))) != c.negated)
  | CondType.BelongToGroup =>
    if e.stringToSearchSet c.stringValue = SearchSet.UnknownSearchSet then true
    else !((!(isSetMember e wordUpper (e.stringToSearchSet c.stringValue))) != c.negated)
  | CondType.InWordList =>
    !((!(regexContainsWord c.stringValue wordUpper)) != c.negated)
  | CondType.NumAnagrams =>
    decide (c.minValue ≤ numAnagrams e wordUpper ∧ numAnagrams e wordUpper ≤ c.maxValue)
  | _ => true

/-- WordEngine::matchesConditions — the word passes every special
postcondition in the list. -/
def matchesConditions (e : Env) (word : String) (conds : List SearchCondition) : Bool :=
  conds.all (matchesCondition e (toUpperS word))

/-- Modelled from the spec: `SearchSpec::optimize` (source not in the
excerpt).  §3 describes optimization as a pure rewrite that turns statically
known named-group conditions into InWordList conditions; `WordEngine::search`
performs exactly that rewrite for the one such group (SetNewInOwl2) inside
its own classification loop (lines 335-347), so the separate optimize call is
modelled as the identity. -/
def optimize (spec : SearchSpec) : SearchSpec := spec

/-- The state of the classification loop at the head of WordEngine::search:
the two dispatch flags, the probability range picked up from
ProbabilityOrder conditions, and the (possibly rewritten) condition list. -/
structure ClassifyResult where
  mustSearchGraph : Bool
  wordListCondition : Bool
  probRangeMin : Int
  probRangeMax : Int
  conds : List SearchCondition
deriving DecidableEq

/-- One iteration of the classification loop of WordEngine::search. -/
def classifyStep (e : Env) (acc : ClassifyResult) (c : SearchCondition) : ClassifyResult :=
  match c.type with
  | CondType.InWordList =>
    { acc with wordListCondition := true,
               mustSearchGraph := acc.mustSearchGraph || c.negated,
               conds := acc.conds ++ [c] }
  | CondType.NumAnagrams =>
    { acc with conds := acc.conds ++ [c] }
  | CondType.BelongToGroup =>
    if e.stringToSearchSet c.stringValue = SearchSet.SetNewInOwl2 then
      { acc with wordListCondition := true,
                 conds := acc.conds ++
                   [{ c with type := CondType.InWordList,
                             stringValue := e.newInOwl2String }] }
    else { acc with mustSearchGraph := true, conds := acc.conds ++ [c] }
  | CondType.ProbabilityOrder =>
    { acc with probRangeMin := c.minValue, probRangeMax := c.maxValue,
               conds := acc.conds ++ [c] }
  | _ =>
    { acc with mustSearchGraph := true, conds := acc.conds ++ [c] }

/-- The classification loop of WordEngine::search over the optimized
condition list. -/
def classify (e : Env) (conds : List SearchCondition) : ClassifyResult :=
  conds.foldl (classifyStep e) ⟨false, false, 0, 0, []⟩

/-- A decimal digit character. -/
def digitChar (n : Nat) : Char := Char.ofNat (48 + n)

/-- The zero-padded nine-digit decimal rendering produced by
`radix.sprintf ("%09.0f", v)` for the values 0 ≤ v < 10^9 that
`1e9 - 1 - getNumCombinations (...)` takes for realistic combination counts. -/
def padNine (n : Nat) : List Char :=
  (List.range 9).map (fun i => digitChar (n / 10 ^ (8 - i) % 10))

/-- The sort key WordEngine::search builds for probability ordering: the
nine-digit value of 10^9 - 1 - combinations, followed by the uppercased
word. -/
def probKey (e : Env) (word : String) : String :=
  ⟨padNine (10 ^ 9 - 1 - e.numCombinations (toUpperS word)) ++ (toUpperS word).data⟩

/-- QMap<QString, QString>::insert — keep the pairs sorted strictly by key
and replace the value of an existing key. -/
def qmapInsert (k v : String) : List (String × String) → List (String × String)
  | [] => [(k, v)]
  | (k2, v2) :: rest =>
    if strLt k k2 then (k, v) :: (k2, v2) :: rest
    else if k = k2 then (k, v) :: rest
    else (k2, v2) :: qmapInsert k v rest

/-- The probMap built by WordEngine::search, read back as its value list
(QMap::values returns the values in ascending key order). -/
def probMapValues (e : Env) (ws : List String) : List String :=
  (ws.foldl (fun m w => qmapInsert (probKey e w) w m) []).map Prod.snd

/-- Qt4 QList::mid (pos, length): a negative length, or one reaching past the
end, is clamped to "the rest of the list". -/
def qlistMid (l : List String) (pos : Nat) (len : Int) : List String :=
  if len < 0 ∨ (l.length : Int) < (pos : Int) + len then
    (l.drop pos).take ((l.length : Int) - (pos : Int)).toNat
  else (l.drop pos).take len.toNat

/-- The probability-order block of WordEngine::search: when the range's upper
bound is positive, empty result if min exceeds the list size, otherwise clamp
min up to 1, key every word, and slice the value list of the key-sorted
map. -/
def applyProbability (e : Env) (probRangeMin probRangeMax : Int)
    (wordList : List String) : List String :=
  if 0 < probRangeMax then
    if (wordList.length : Int) < probRangeMin then []
    else
      qlistMid (probMapValues e wordList)
        (((if probRangeMin ≤ 0 then 1 else probRangeMin) - 1).toNat)
        (probRangeMax - (if probRangeMin ≤ 0 then 1 else probRangeMin) + 1)
  else wordList

/-- The final all-caps conversion of WordEngine::search. -/
def applyCaps (allCaps : Bool) (l : List String) : List String :=
  if allCaps then l.map toUpperS else l

/-- The optimized spec as it stands after the classification loop of
WordEngine::search (the loop may have rewritten conditions in place). -/
def searchOptSpec (e : Env) (spec : SearchSpec) : SearchSpec :=
  { optimize spec with conditions := (classify e (optimize spec).conditions).conds }

/-- The graph-path word list of WordEngine::search: the graph search results
with every word failing a special postcondition erased. -/
def graphPathWordList (e : Env) (spec : SearchSpec) : List String :=
  (e.graphSearch (searchOptSpec e spec)).filter
    (fun w => matchesConditions e w (searchOptSpec e spec).conditions)

/-- WordEngine::search — optimize, classify, dispatch to the set-algebra path
when only word-list-compatible conditions remain, otherwise graph-search,
post-filter, apply the probability range and the case conversion. -/
def search (e : Env) (spec : SearchSpec) (allCaps : Bool) : List String :=
  if (classify e (optimize spec).conditions).wordListCondition &&
     !(classify e (optimize spec).conditions).mustSearchGraph then
    nonGraphSearch e (searchOptSpec e spec)
  else
    applyCaps allCaps
      (applyProbability e (classify e (optimize spec).conditions).probRangeMin
        (classify e (optimize spec).conditions).probRangeMax
        (graphPathWordList e spec))

/-!  Definition store.  A stored definition table maps a word to its
`std::multimap<QString, QString>` from part-of-speech tag to sense text
(equal tags keep insertion order, which is how `std::multimap::insert`
places new entries at the upper bound). -/

/-- A word's definition table: word, then (part-of-speech, sense text)
pairs. -/
abbrev DefTable := List (String × List (String × String))

/-- std::map<...>::find on the definition table. -/
def defLookup (dt : DefTable) (w : String) : Option (List (String × String)) :=
  match dt with
  | [] => none
  | (w2, mm) :: rest => if w = w2 then some mm else defLookup rest w

/-- std::multimap<QString, QString>::insert — insert after the last entry with
a key not greater than the new one (upper-bound placement keeps equal keys in
insertion order). -/
def mmInsert (k v : String) : List (String × String) → List (String × String)
  | [] => [(k, v)]
  | (k2, v2) :: rest =>
    if strLt k k2 then (k, v) :: (k2, v2) :: rest
    else (k2, v2) :: mmInsert k v rest

/-- std::multimap::find — the first entry with the given key. -/
def mmFind (k : String) : List (String × String) → Option String
  | [] => none
  | (k2, v2) :: rest => if k = k2 then some v2 else mmFind k rest

/-- First match of the posRegex `\[(\w+)` anywhere in a sense: the word
characters following the first `[` that is followed by at least one word
character. -/
def findPos : List Char → Option String
  | [] => none
  | c :: rest =>
    if c = '[' then
      match rest.takeWhile isWordChar with
      | [] => findPos rest
      | w => some ⟨w⟩
    else findPos rest

/-- WordEngine::addDefinition — skip empty words or definitions, split the
definition into senses on " / ", tag each sense with its bracketed part of
speech (empty when absent) and record the multimap under the word.
`std::map::insert` does not replace an existing key, so a word already
present keeps its old table. -/
def splitSensesAux : List Char → List Char → List String
  | ' ' :: '/' :: ' ' :: rest, cur => ⟨cur.reverse⟩ :: splitSensesAux rest []
  | c :: rest, cur => splitSensesAux rest (c :: cur)
  | [], cur => [⟨cur.reverse⟩]

/-- QString::split (" / ") on a definition line. -/
def splitSenses (s : String) : List String := splitSensesAux s.data []

/-- WordEngine::addDefinition (see `splitSensesAux` for the sense split). -/
def addDefinition (dt : DefTable) (word definition : String) : DefTable :=
  if word.data.length = 0 ∨ definition.data.length = 0 then dt
  else if (defLookup dt word).isSome then dt
  else
    dt ++ [(word, (splitSenses definition).foldl
      (fun m d => mmInsert ((findPos d.data).getD "") d m) [])]

/-- Parse a `{WORD=POS}` or `<WORD=POS>` token at the head of the character
list: opening bracket, one or more word characters, `=`, one or more word
characters, closing bracket.  Returns the captured word, the part of speech
and the matched length. -/
def parseTokenHere (openC closeC : Char) (cs : List Char) : Option (String × String × Nat) :=
  match cs with
  | [] => none
  | c :: rest =>
    if c = openC then
      match rest.takeWhile isWordChar with
      | [] => none
      | w =>
        match rest.drop w.length with
        | '=' :: rest2 =>
          match rest2.takeWhile isWordChar with
          | [] => none
          | p =>
            match rest2.drop p.length with
            | c2 :: _ =>
              if c2 = closeC then some (⟨w⟩, ⟨p⟩, w.length + p.length + 3)
              else none
            | [] => none
        | _ => none
    else none

/-- Leftmost match of a bracketed token (QRegExp::indexIn scanning from
position 0): the match index, the captured word and part of speech, and the
matched length. -/
def findToken (openC closeC : Char) : List Char → Nat → Option (Nat × String × String × Nat)
  | [], _ => none
  | c :: cs, i =>
    match parseTokenHere openC closeC (c :: cs) with
    | some (w, p, len) => some (i, w, p, len)
    | none => findToken openC closeC cs (i + 1)

/-- Truncate a sense text before the first " [" (QString::left of
indexOf (" ["), where an absent " [" keeps the whole string). -/
def truncAtBracket : List Char → List Char
  | ' ' :: '[' :: _ => []
  | c :: rest => c :: truncAtBracket rest
  | [] => []

/-- WordEngine::getSubDefinition — the first sense stored for the word under
the part of speech, truncated before any trailing bracketed annotation;
empty when absent (QString::null concatenates as the empty string). -/
def getSubDefinition (dt : DefTable) (word pos : String) : String :=
  match defLookup dt word with
  | none => ""
  | some mm =>
    match mmFind pos mm with
    | none => ""
    | some text => ⟨truncAtBracket text.data⟩

/-- The MAX_DEFINITION_LINKS constant of WordEngine.cpp. -/
def MAX_DEFINITION_LINKS : Nat := 3

/-- First link token of a definition string: the leftmost follow-style token
`{WORD=POS}` when one exists (in which case follow mode is pinned), otherwise
the leftmost replace-style token `<WORD=POS>`.  The final component records
whether the matched token was follow-style. -/
def firstLinkToken (definition : String) : Option (Nat × String × String × Nat × Bool) :=
  match findToken '\x7b' '\x7d' definition.data 0 with
  | some (index, word, pos, len) => some (index, word, pos, len, true)
  | none =>
    match findToken '<' '>' definition.data 0 with
    | some (index, word, pos, len) => some (index, word, pos, len, false)
    | none => none

/-- WordEngine::replaceDefinitionLinks together with the number of token
substitutions it performs.  The first follow-style token `{WORD=POS}` is
preferred; otherwise the first replace-style token `<WORD=POS>`; once a
follow token has matched, follow-style replacements are used for the rest of
the call chain.  With the budget exhausted the token is replaced by the bare
word; otherwise by the follow/replace text, and resolution recurses on the
modified string with the budget decremented. -/
def replaceDefinitionLinksAux (dt : DefTable) : String → Nat → Bool → String × Nat
  | definition, maxDepth, useFollow =>
    match firstLinkToken definition with
    | none => (definition, 0)
    | some (index, word, pos, len, isFollowTok) =>
      match maxDepth with
      | 0 =>
        (⟨definition.data.take index ++ word.data ++ definition.data.drop (index + len)⟩, 1)
      | d + 1 =>
        let uf := useFollow || isFollowTok
        let replacement :=
          if uf then
            if isFollowTok then
              word ++ " (" ++ getSubDefinition dt (toUpperS word) pos ++ ")"
            else getSubDefinition dt (toUpperS word) pos
          else toUpperS word ++ ", " ++ getSubDefinition dt (toUpperS word) pos
        let r := replaceDefinitionLinksAux dt
          ⟨definition.data.take index ++ replacement.data ++ definition.data.drop (index + len)⟩
          d uf
        (r.1, r.2 + 1)

/-- WordEngine::replaceDefinitionLinks — the resolved string. -/
def replaceDefinitionLinks (dt : DefTable) (definition : String) (maxDepth : Nat)
    (useFollow : Bool) : String :=
  (replaceDefinitionLinksAux dt definition maxDepth useFollow).1

/-- The number of token substitutions one call to
WordEngine::replaceDefinitionLinks performs. -/
def replaceDefinitionLinksCount (dt : DefTable) (definition : String) (maxDepth : Nat)
    (useFollow : Bool) : Nat :=
  (replaceDefinitionLinksAux dt definition maxDepth useFollow).2

/-- Concatenation with " / " separators used by WordEngine::getDefinition. -/
def joinDefs : List String → String
  | [] => ""
  | [d] => d
  | d :: ds => d ++ " / " ++ joinDefs ds

/-- WordEngine::getDefinition — concatenate every stored sense, resolved with
a budget of MAX_DEFINITION_LINKS, with " / " (QString::null, modelled as "",
when the word has no definitions). -/
def getDefinition (dt : DefTable) (word : String) : String :=
  match defLookup dt word with
  | none => ""
  | some mm =>
    joinDefs (mm.map (fun kv => replaceDefinitionLinks dt kv.2 MAX_DEFINITION_LINKS false))

/-!  Import-side engine state.  The forward and reverse word graphs are
modelled from the spec (§4.1) as sets of accepted words: `containsWord` is
exact membership and `addWord` an idempotent insertion.  The stem maps are
keyed by length, each value a stem list and a set of stem alphagrams. -/

/-- The mutable state of a WordEngine instance, as the import operations see
it.  `graphWords`/`rgraphWords` are the forward and reverse graphs, modelled
from the spec as the sets of accepted words; the remaining fields mirror the
members of WordEngine.cpp. -/
structure Engine where
  graphWords : List String
  rgraphWords : List String
  numAnagramsMap : String → Int
  lexiconName : String
  stems : Nat → Option (List String)
  stemAlphagrams : Nat → Option (List String)
  definitions : DefTable

/-- A WordEngine with nothing imported yet. -/
def initialEngine : Engine :=
  ⟨[], [], fun _ => 0, "", fun _ => none, fun _ => none, []⟩

/-- Modelled from the spec: `WordGraph::containsWord` (§4.1 — exact
membership). -/
def containsWordG (ws : List String) (w : String) : Bool := decide (w ∈ ws)

/-- Modelled from the spec: `WordGraph::addWord` (§4.1 — idempotent
insertion). -/
def addWord (ws : List String) (w : String) : List String :=
  if containsWordG ws w then ws else ws ++ [w]

/-- The word a line of a word-list or stem file contributes, as
WordEngine::importTextFile and WordEngine::importStems parse it before any
upper-casing: simplify the line, skip it when empty or starting with `#`,
otherwise take the first space-delimited token. -/
def parseLineRaw (line : String) : Option String :=
  match (simplified line).data with
  | [] => none
  | c :: _ => if c = '#' then none else some (sectionFirst (simplified line))

/-- The (upper-cased) word a line of a word-list file contributes in
WordEngine::importTextFile. -/
def parseLine (line : String) : Option String :=
  (parseLineRaw line).map toUpperS

/-- One line of WordEngine::importTextFile: bump the anagram count of the
word's alphagram when the graph does not yet contain the word, add the word
to the graph, and record the rest of the line as its definition when
definitions were requested. -/
def importTextFileStep (loadDefs : Bool) (st : Engine) (line : String) : Engine :=
  match parseLine line with
  | none => st
  | some word =>
    let st1 :=
      if containsWordG st.graphWords word then st
      else { st with numAnagramsMap := fun a =>
               if a = getAlphagram word then st.numAnagramsMap a + 1
               else st.numAnagramsMap a }
    let st2 := { st1 with graphWords := addWord st1.graphWords word }
    if loadDefs then
      { st2 with definitions :=
          addDefinition st2.definitions word (sectionRest (simplified line)) }
    else st2

/-- WordEngine::importTextFile over the lines of the file: process each line,
then record the lexicon name; returns the new state and the number of
imported (non-skipped) lines. -/
def importTextFile (st : Engine) (lines : List String) (lexName : String)
    (loadDefs : Bool) : Engine × Nat :=
  ({ lines.foldl (importTextFileStep loadDefs) st with lexiconName := lexName },
   (lines.filterMap parseLine).length)

/-- WordEngine::importDawgFile.  The underlying `WordGraph::importDawgFile`
is not in the source excerpt, so its outcome is abstracted: `ok` is its
success flag and `newGraph` the word set it loads on success.  On failure the
call returns false and changes nothing; on a reverse import it returns true
without touching the lexicon name; otherwise it also records the lexicon
name. -/
def importDawgFile (st : Engine) (ok reverse : Bool) (lexName : String)
    (newGraph : List String) : Engine × Bool :=
  if ok = false then (st, false)
  else if reverse then ({ st with rgraphWords := newGraph }, true)
  else ({ st with graphWords := newGraph, lexiconName := lexName }, true)

/-- The parse state of the line loop of WordEngine::importStems: the stem
list, the alphagram set, the imported count and the reference length (0 until
the first kept line fixes it). -/
structure StemParse where
  words : List String
  alphagrams : List String
  imported : Nat
  length : Nat
deriving DecidableEq

/-- One line of WordEngine::importStems: skip comments and blanks, fix the
reference length on the first kept word, discard words of any other length,
and otherwise record the word and its alphagram. -/
def stemParseStep (acc : StemParse) (line : String) : StemParse :=
  match parseLineRaw line with
  | none => acc
  | some word =>
    let len := if acc.length = 0 then word.data.length else acc.length
    if ¬ len = word.data.length then { acc with length := len }
    else
      { words := acc.words ++ [word],
        alphagrams := setInsert (getAlphagram word) acc.alphagrams,
        imported := acc.imported + 1,
        length := len }

/-- The parse of a whole stem file. -/
def stemParseOf (lines : List String) : StemParse :=
  lines.foldl stemParseStep ⟨[], [], 0, 0⟩

/-- WordEngine::importStems — parse the file, then either create the stem and
stem-alphagram buckets for the parsed length, or append the stems to the
existing bucket and union the alphagrams into the existing set.  (When the
stem bucket exists but the alphagram bucket does not, the C++ dereferences an
end iterator; the model leaves the alphagram map unchanged in that
unreachable state.) -/
def importStems (st : Engine) (lines : List String) : Engine × Nat :=
  match st.stems (stemParseOf lines).length with
  | none =>
    ({ st with
        stems := fun k =>
          if k = (stemParseOf lines).length then some (stemParseOf lines).words
          else st.stems k,
        stemAlphagrams := fun k =>
          if k = (stemParseOf lines).length then some (stemParseOf lines).alphagrams
          else st.stemAlphagrams k },
     (stemParseOf lines).imported)
  | some existing =>
    ({ st with
        stems := fun k =>
          if k = (stemParseOf lines).length then
            some (existing ++ (stemParseOf lines).words)
          else st.stems k,
        stemAlphagrams := fun k =>
          if k = (stemParseOf lines).length then
            match st.stemAlphagrams (stemParseOf lines).length with
            | some s => some ((stemParseOf lines).alphagrams.foldl
                (fun acc a => setInsert a acc) s)
            | none => st.stemAlphagrams k
          else st.stemAlphagrams k },
     (stemParseOf lines).imported)

/-!  Claim-side definitions.  The next definitions follow the wording of the
specification (not the code); the theorems below compare the code-derived
definitions against them. -/

/-- Formalizes the claim's description of the type-one-eight alignment: walk
the word's alphagram left to right against the stem alphagram, advancing the
stem on a match and counting a missing letter otherwise; the result is the
number of missing letters When the stem is fully consumed, and `none` when
the alphagram runs out first. -/
def alignWalk : List Char → List Char → Option Nat
  | _, [] => some 0
  | [], _ :: _ => none
  | a :: as, s :: ss =>
    if a = s then alignWalk as ss
    else (alignWalk as (s :: ss)).map (fun k => k + 1)

/-- Formalizes the claim's running anagram-range bookkeeping: starting from a
given range, each NumAnagrams condition is checked for overlap against the
current range (`none` on failure) and then installs its own range. -/
def ngsRange : List SearchCondition → Int × Int → Option (Int × Int)
  | [], r => some r
  | c :: rest, (mn, mx) =>
    match c.type with
    | CondType.NumAnagrams =>
      if c.minValue > mx ∨ c.maxValue < mn then none
      else ngsRange rest (c.minValue, c.maxValue)
    | _ => ngsRange rest (mn, mx)

/-!  Membership lemmas for the `std::set` model. -/

theorem mem_setInsert (w : String) (l : List String) (a : String) :
    a ∈ setInsert w l ↔ a = w ∨ a ∈ l := by
  induction l with
  | nil => simp [setInsert]
  | cons x xs ih =>
    by_cases h1 : strLt w x = true
    · simp [setInsert, h1, List.mem_cons]
    · by_cases h2 : w = x
      · subst h2
        simp [setInsert, h1, List.mem_cons]
      · simp only [setInsert, h1, h2, if_neg, if_false, Bool.not_eq_true] at *
        simp [List.mem_cons, ih]
        tauto

theorem mem_insertIfFold (P : String → Prop) [DecidablePred P] (l : List String) :
    ∀ (acc : List String) (a : String),
      a ∈ l.foldl (fun acc x => if P x then setInsert x acc else acc) acc ↔
        (a ∈ l ∧ P a) ∨ a ∈ acc := by
  induction l with
  | nil => simp
  | cons x xs ih =>
    intro acc a
    by_cases hp : P x
    · simp only [List.foldl_cons, if_pos hp, ih, mem_setInsert, List.mem_cons]
      constructor
      · rintro (⟨h1, h2⟩ | (h | h))
        · exact Or.inl ⟨Or.inr h1, h2⟩
        · subst h
          exact Or.inl ⟨Or.inl rfl, hp⟩
        · exact Or.inr h
      · rintro (⟨h1 | h1, h2⟩ | h)
        · subst h1
          exact Or.inr (Or.inl rfl)
        · exact Or.inl ⟨h1, h2⟩
        · exact Or.inr (Or.inr h)
    · simp only [List.foldl_cons, if_neg hp, ih, List.mem_cons]
      constructor
      · rintro (⟨h1, h2⟩ | h)
        · exact Or.inl ⟨Or.inr h1, h2⟩
        · exact Or.inr h
      · rintro (⟨h1 | h1, h2⟩ | h)
        · subst h1
          exact absurd h2 hp
        · exact Or.inl ⟨h1, h2⟩
        · exact Or.inr h

theorem mem_insertFold (l : List String) :
    ∀ (acc : List String) (a : String),
      a ∈ l.foldl (fun acc x => setInsert x acc) acc ↔ a ∈ l ∨ a ∈ acc := by
  induction l with
  | nil => simp
  | cons x xs ih =>
    intro acc a
    simp only [List.foldl_cons, ih, mem_setInsert, List.mem_cons]
    tauto

theorem contains_iff_mem (l : List String) (a : String) :
    l.contains a = true ↔ a ∈ l := by
  simp [List.contains]

theorem mem_makeWordSet (e : Env) (s : String) (a : String) :
    a ∈ makeWordSet e s ↔ a ∈ splitOnChar ' ' s ∧ e.containsWord a = true := by
  simp [makeWordSet, mem_insertIfFold, isAcceptable]

theorem mem_intersectSet (ws fin : List String) (a : String) :
    a ∈ intersectSet ws fin ↔ a ∈ ws ∧ a ∈ fin := by
  simp only [intersectSet]
  rw [mem_insertIfFold (fun w => fin.contains w) ws [] a]
  simp [contains_iff_mem]

theorem mem_unionSet (ws fin : List String) (a : String) :
    a ∈ unionSet ws fin ↔ a ∈ ws ∨ a ∈ fin := by
  simp [unionSet, mem_insertFold]

theorem eq_nil_iff_no_mem (l : List String) : l = [] ↔ ∀ a, ¬ a ∈ l := by
  cases l with
  | nil => simp
  | cons x xs =>
    simp only [iff_false, List.mem_cons]
    constructor
    · intro h
      exact absurd h (by simp)
    · intro h
      exact absurd (h x (Or.inl rfl)) (fun hh => hh)

/-!  Order lemmas for the QString comparison. -/

theorem charLtB_irrefl (a : Char) : charLtB a a = false := by
  simp [charLtB]

theorem charLtB_eq_of_not (a b : Char) (h1 : charLtB a b = false)
    (h2 : charLtB b a = false) : a = b := by
  simp only [charLtB, decide_eq_false_iff_not, Nat.not_lt] at h1 h2
  have h3 : a.toNat = b.toNat := Nat.le_antisymm h2 h1
  apply Char.eq_of_val_eq
  apply UInt32.eq_of_toBitVec_eq
  exact BitVec.toNat_injective h3

theorem charLtB_trans (a b c : Char) (h1 : charLtB a b = true)
    (h2 : charLtB b c = true) : charLtB a c = true := by
  simp only [charLtB, decide_eq_true_eq] at *
  exact Nat.lt_trans h1 h2

theorem charLtB_asymm (a b : Char) (h : charLtB a b = true) : charLtB b a = false := by
  simp only [charLtB, decide_eq_true_eq, decide_eq_false_iff_not, Nat.not_lt] at *
  exact Nat.le_of_lt h

theorem charListLt_irrefl (l : List Char) : charListLt l l = false := by
  induction l with
  | nil => rfl
  | cons c cs ih => simp [charListLt, charLtB_irrefl, ih]

theorem charListLt_trans : ∀ (a b c : List Char), charListLt a b = true →
    charListLt b c = true → charListLt a c = true := by
  intro a
  induction a with
  | nil =>
    intro b c hab hbc
    cases c with
    | nil =>
      cases b with
      | nil => exact hab
      | cons y ys => simp [charListLt] at hbc
    | cons z zs => simp [charListLt]
  | cons x xs ih =>
    intro b c hab hbc
    cases b with
    | nil => simp [charListLt] at hab
    | cons y ys =>
      cases c with
      | nil => simp [charListLt] at hbc
      | cons z zs =>
        simp only [charListLt] at hab hbc ⊢
        by_cases hxy : charLtB x y = true
        · by_cases hyz : charLtB y z = true
          · simp [charLtB_trans x y z hxy hyz]
          · simp only [hyz, if_false, Bool.not_eq_true] at hbc
            by_cases hzy : charLtB z y = true
            · simp [hzy] at hbc
            · have : y = z := charLtB_eq_of_not y z (by
                cases h : charLtB y z
                · rfl
                · exact absurd h hyz) (by
                cases h : charLtB z y
                · rfl
                · exact absurd h hzy)
              subst this
              simp [hxy]
        · simp only [hxy, if_false, Bool.not_eq_true] at hab
          by_cases hyx : charLtB y x = true
          · simp [hyx] at hab
          · have hxey : x = y := charLtB_eq_of_not x y
              (Bool.eq_false_iff.mpr hxy) (Bool.eq_false_iff.mpr hyx)
            subst hxey
            simp only [charLtB_irrefl, Bool.false_eq_true, if_false] at hab
            by_cases hxz : charLtB x z = true
            · simp [hxz]
            · simp only [hxz, if_false]
              by_cases hzx : charLtB z x = true
              · simp only [hzx, if_true]
                simp only [hxz, if_false, hzx, if_true] at hbc
                exact hbc
              · simp only [Bool.eq_false_iff.mpr hzx, if_false]
                simp only [hxz, if_false, Bool.eq_false_iff.mpr hzx] at hbc
                exact ih ys zs hab hbc

theorem charListLt_trich (a b : List Char) :
    charListLt a b = true ∨ a = b ∨ charListLt b a = true := by
  induction a generalizing b with
  | nil =>
    cases b with
    | nil => exact Or.inr (Or.inl rfl)
    | cons y ys => exact Or.inl rfl
  | cons x xs ih =>
    cases b with
    | nil => exact Or.inr (Or.inr rfl)
    | cons y ys =>
      by_cases hxy : charLtB x y = true
      · exact Or.inl (by simp [charListLt, hxy])
      · by_cases hyx : charLtB y x = true
        · refine Or.inr (Or.inr ?_)
          simp [charListLt, hyx, charLtB_asymm y x hyx]
        · have hxey : x = y := charLtB_eq_of_not x y
            (Bool.eq_false_iff.mpr hxy) (Bool.eq_false_iff.mpr hyx)
          subst hxey
          rcases ih ys with h | h | h
          · exact Or.inl (by simp [charListLt, charLtB_irrefl, h])
          · exact Or.inr (Or.inl (by rw [h]))
          · exact Or.inr (Or.inr (by simp [charListLt, charLtB_irrefl, h]))

theorem strLt_trans (a b c : String) (h1 : strLt a b = true) (h2 : strLt b c = true) :
    strLt a c = true :=
  charListLt_trans a.data b.data c.data h1 h2

theorem strLt_trich (a b : String) : strLt a b = true ∨ a = b ∨ strLt b a = true := by
  rcases charListLt_trich a.data b.data with h | h | h
  · exact Or.inl h
  · exact Or.inr (Or.inl (String.ext h))
  · exact Or.inr (Or.inr h)

theorem strLt_irrefl (a : String) : strLt a a = false :=
  charListLt_irrefl a.data

/-- C1: for a SearchSpec whose conditions are exactly two InWordList
conditions with payloads A and B, search returns exactly the acceptable words
listed in A intersected with the acceptable words listed in B when the
conjunction flag is true, and their union when it is false. -/
theorem c1_two_inWordList_set_algebra (e : Env) (conj : Bool) (a b : String)
    (n1 x1 n2 x2 : Int) (ac : Bool) (w : String) :
    w ∈ search e ⟨conj, [⟨CondType.InWordList, false, a, n1, x1⟩,
                         ⟨CondType.InWordList, false, b, n2, x2⟩]⟩ ac ↔
      (if conj then
        (w ∈ splitOnChar ' ' a ∧ e.containsWord w = true) ∧
        (w ∈ splitOnChar ' ' b ∧ e.containsWord w = true)
      else
        (w ∈ splitOnChar ' ' a ∧ e.containsWord w = true) ∨
        (w ∈ splitOnChar ' ' b ∧ e.containsWord w = true)) := by
  have hsearch : search e ⟨conj, [⟨CondType.InWordList, false, a, n1, x1⟩,
      ⟨CondType.InWordList, false, b, n2, x2⟩]⟩ ac =
      nonGraphSearch e ⟨conj, [⟨CondType.InWordList, false, a, n1, x1⟩,
      ⟨CondType.InWordList, false, b, n2, x2⟩]⟩ := by
    simp [search, optimize, classify, classifyStep, searchOptSpec]
  rw [hsearch]
  by_cases hc : conj = true
  · subst hc
    by_cases hI : intersectSet (makeWordSet e b) (makeWordSet e a) = []
    · have hno := (eq_nil_iff_no_mem _).mp hI w
      rw [mem_intersectSet] at hno
      simp only [mem_makeWordSet] at hno
      simp [nonGraphSearch, ngsLoop, MAX_ANAGRAMS, hI, mem_makeWordSet]
      tauto
    · simp [nonGraphSearch, ngsLoop, MAX_ANAGRAMS, hI, mem_intersectSet, mem_makeWordSet]
      tauto
  · replace hc : conj = false := by
      cases conj
      · rfl
      · exact absurd rfl hc
    subst hc
    simp [nonGraphSearch, ngsLoop, MAX_ANAGRAMS, mem_unionSet, mem_makeWordSet]
    tauto

/-- C9: importDawgFile records the lexicon name only on a successful
non-reverse import; on a failed import, and on every reverse import, the
stored lexicon name keeps its previous value. -/
theorem c9_importDawgFile_lexicon_name (st : Engine) (ok reverse : Bool)
    (lexName : String) (newGraph : List String) :
    ((importDawgFile st ok reverse lexName newGraph).1).lexiconName =
      (if ok && !reverse then lexName else st.lexiconName) := by
  cases ok
  · simp [importDawgFile]
  · cases reverse
    · simp [importDawgFile]
    · simp [importDawgFile]

/-- QString::left of length - 1 is the word with its last letter removed. -/
theorem qleft_drop_last (w : String) (h : 1 ≤ w.data.length) :
    qleft w ((w.data.length : Int) - 1) = ⟨w.data.take (w.data.length - 1)⟩ := by
  have h1 : ¬ (((w.data.length : Int) - 1) < 0 ∨
      (w.data.length : Int) ≤ (w.data.length : Int) - 1) := by
    omega
  have h2 : ((w.data.length : Int) - 1).toNat = w.data.length - 1 := by
    omega
  unfold qleft
  rw [if_neg h1, h2]

/-- QString::right of length - 1 is the word with its first letter removed. -/
theorem qright_drop_first (w : String) (h : 1 ≤ w.data.length) :
    qright w ((w.data.length : Int) - 1) = ⟨w.data.drop 1⟩ := by
  have h1 : ¬ (((w.data.length : Int) - 1) < 0 ∨
      (w.data.length : Int) ≤ (w.data.length : Int) - 1) := by
    omega
  have h2 : w.data.length - ((w.data.length : Int) - 1).toNat = 1 := by
    omega
  unfold qright
  rw [if_neg h1, h2]

/-- Environment for the hook-set claims: the acceptable words are exactly AT,
CAT and CATS. -/
def hookEnv : Env :=
  ⟨fun w => decide (w = "AT" ∨ w = "CAT" ∨ w = "CATS"), fun _ => [],
   fun _ => 0, fun _ => none, fun _ => 0,
   fun _ => SearchSet.UnknownSearchSet, ""⟩

/-- C6 counterexample: removing the last letter of the acceptable word CATS
leaves the acceptable word CAT, yet isSetMember does not place CATS in
SetFrontHooks — the code tests removal of the first letter for that set, not
of the last as the claim states. -/
theorem c6_counterexample :
    qleft "CATS" ((("CATS" : String).data.length : Int) - 1) = "CAT" ∧
    hookEnv.containsWord "CAT" = true ∧
    isSetMember hookEnv "CATS" SearchSet.SetFrontHooks = false := by
  refine ⟨by decide, by decide, by decide⟩

/-- C6 amended: for every word with at least one letter, SetFrontHooks holds
iff removing the FIRST letter leaves an acceptable word, SetBackHooks holds
iff removing the LAST letter leaves an acceptable word, and SetHookWords
holds iff at least one of the two holds. -/
theorem c6_amended_hook_sets (e : Env) (w : String) (h : 1 ≤ w.data.length) :
    (isSetMember e w SearchSet.SetFrontHooks = e.containsWord ⟨w.data.drop 1⟩) ∧
    (isSetMember e w SearchSet.SetBackHooks =
      e.containsWord ⟨w.data.take (w.data.length - 1)⟩) ∧
    (isSetMember e w SearchSet.SetHookWords =
      (e.containsWord ⟨w.data.take (w.data.length - 1)⟩ ||
       e.containsWord ⟨w.data.drop 1⟩)) := by
  refine ⟨?_, ?_, ?_⟩
  · show isAcceptable e (qright w ((w.data.length : Int) - 1)) = _
    rw [qright_drop_first w h]
    rfl
  · show isAcceptable e (qleft w ((w.data.length : Int) - 1)) = _
    rw [qleft_drop_last w h]
    rfl
  · show (isAcceptable e (qleft w ((w.data.length : Int) - 1)) ||
      isAcceptable e (qright w ((w.data.length : Int) - 1))) = _
    rw [qleft_drop_last w h, qright_drop_first w h]
    rfl

/-- C6 witness: the amended characterization evaluated on CATS over the
concrete hook environment. -/
theorem c6_amended_witness :
    (isSetMember hookEnv "CATS" SearchSet.SetFrontHooks =
      hookEnv.containsWord ⟨("CATS" : String).data.drop 1⟩) ∧
    (isSetMember hookEnv "CATS" SearchSet.SetBackHooks =
      hookEnv.containsWord ⟨("CATS" : String).data.take
        (("CATS" : String).data.length - 1)⟩) ∧
    (isSetMember hookEnv "CATS" SearchSet.SetHookWords =
      (hookEnv.containsWord ⟨("CATS" : String).data.take
        (("CATS" : String).data.length - 1)⟩ ||
       hookEnv.containsWord ⟨("CATS" : String).data.drop 1⟩)) :=
  c6_amended_hook_sets hookEnv "CATS" (by decide)

/-- A condition the set-algebra dispatch of WordEngine::search tolerates: a
non-negated InWordList condition, a NumAnagrams condition or a
ProbabilityOrder condition. -/
def dispatchOkCond (c : SearchCondition) : Prop :=
  (c.type = CondType.InWordList ∧ c.negated = false) ∨
  c.type = CondType.NumAnagrams ∨ c.type = CondType.ProbabilityOrder

/-- Over dispatch-tolerated conditions, the classification loop leaves
`mustSearchGraph` alone, sets `wordListCondition` exactly when some condition
is InWordList, and appends the conditions unchanged. -/
theorem classify_foldl_ok (e : Env) :
    ∀ (conds : List SearchCondition) (acc : ClassifyResult),
      (∀ c ∈ conds, dispatchOkCond c) →
      (conds.foldl (classifyStep e) acc).mustSearchGraph = acc.mustSearchGraph ∧
      (conds.foldl (classifyStep e) acc).wordListCondition =
        (acc.wordListCondition ||
          conds.any (fun c => decide (c.type = CondType.InWordList))) ∧
      (conds.foldl (classifyStep e) acc).conds = acc.conds ++ conds := by
  intro conds
  induction conds with
  | nil =>
    intro acc h
    simp
  | cons c rest ih =>
    intro acc h
    have hc := h c (List.mem_cons_self c rest)
    have hrest : ∀ x ∈ rest, dispatchOkCond x :=
      fun x hx => h x (List.mem_cons_of_mem c hx)
    rcases hc with ⟨ht, hn⟩ | ht | ht
    · have hstep : classifyStep e acc c =
          { acc with wordListCondition := true,
                     mustSearchGraph := acc.mustSearchGraph,
                     conds := acc.conds ++ [c] } := by
        simp [classifyStep, ht, hn]
      obtain ⟨i1, i2, i3⟩ := ih { acc with wordListCondition := true, mustSearchGraph := acc.mustSearchGraph, conds := acc.conds ++ [c] } hrest
      refine ⟨?_, ?_, ?_⟩
      · rw [List.foldl_cons, hstep, i1]
      · rw [List.foldl_cons, hstep, i2]
        simp [ht]
      · rw [List.foldl_cons, hstep, i3]
        simp
    · have hstep : classifyStep e acc c = { acc with conds := acc.conds ++ [c] } := by
        simp [classifyStep, ht]
      obtain ⟨i1, i2, i3⟩ := ih { acc with conds := acc.conds ++ [c] } hrest
      refine ⟨?_, ?_, ?_⟩
      · rw [List.foldl_cons, hstep, i1]
      · rw [List.foldl_cons, hstep, i2]
        simp [ht]
      · rw [List.foldl_cons, hstep, i3]
        simp
    · have hstep : classifyStep e acc c =
          { acc with probRangeMin := c.minValue, probRangeMax := c.maxValue,
                     conds := acc.conds ++ [c] } := by
        simp [classifyStep, ht]
      obtain ⟨i1, i2, i3⟩ := ih { acc with probRangeMin := c.minValue, probRangeMax := c.maxValue, conds := acc.conds ++ [c] } hrest
      refine ⟨?_, ?_, ?_⟩
      · rw [List.foldl_cons, hstep, i1]
      · rw [List.foldl_cons, hstep, i2]
        simp [ht]
      · rw [List.foldl_cons, hstep, i3]
        simp

/-- The set-algebra loop never consults the abstract graph search: it depends
on the environment only through containsWord. -/
theorem ngsLoop_graph_irrel (e : Env) (g : SearchSpec -> List String) (conj : Bool) :
    forall (conds : List SearchCondition) (mn mx : Int) (n : Nat) (fin : List String),
      ngsLoop { e with graphSearch := g } conj conds mn mx n fin =
        ngsLoop e conj conds mn mx n fin := by
  intro conds
  induction conds with
  | nil =>
    intro mn mx n fin
    rfl
  | cons c rest ih =>
    intro mn mx n fin
    have hm : forall s, makeWordSet { e with graphSearch := g } s = makeWordSet e s := by
      intro s
      rfl
    cases hct : c.type <;> simp [ngsLoop, hct, hm, ih]

/-- WordEngine::nonGraphSearch never consults the abstract graph search. -/
theorem nonGraphSearch_graph_irrel (e : Env) (g : SearchSpec -> List String)
    (spec : SearchSpec) :
    nonGraphSearch { e with graphSearch := g } spec = nonGraphSearch e spec := by
  have h := ngsLoop_graph_irrel e g spec.conjunction spec.conditions 0 MAX_ANAGRAMS 0 []
  simp only [nonGraphSearch, h]

/-- C2 amended: when every condition of the spec is a NON-NEGATED InWordList
condition, a NumAnagrams condition or a ProbabilityOrder condition, and at
least one condition is InWordList, search dispatches to the set-algebra path
and returns exactly nonGraphSearch of the optimized spec, for every behavior
of the word graph's search (the graph is not consulted).  The original
claim's allowance for negated InWordList conditions fails: a negated
InWordList condition sets mustSearchGraph and forces the graph path. -/
theorem c2_amended_dispatch (e : Env) (g : SearchSpec → List String)
    (spec : SearchSpec) (ac : Bool)
    (h1 : ∀ c ∈ spec.conditions, dispatchOkCond c)
    (h2 : ∃ c ∈ spec.conditions, c.type = CondType.InWordList) :
    search { e with graphSearch := g } spec ac = nonGraphSearch e (optimize spec) := by
  obtain ⟨i1, i2, i3⟩ := classify_foldl_ok { e with graphSearch := g }
    spec.conditions ⟨false, false, 0, 0, []⟩ h1
  have hany : spec.conditions.any
      (fun c => decide (c.type = CondType.InWordList)) = true := by
    obtain ⟨c, hmem, hct⟩ := h2
    exact List.any_eq_true.mpr ⟨c, hmem, by simp [hct]⟩
  have hwlc : (classify { e with graphSearch := g } spec.conditions).wordListCondition = true := by
    rw [classify, i2, hany]
    simp
  have hmsg : (classify { e with graphSearch := g } spec.conditions).mustSearchGraph = false := by
    rw [classify, i1]
  have hconds : (classify { e with graphSearch := g } spec.conditions).conds = spec.conditions := by
    rw [classify, i3]
    simp
  have hopt : searchOptSpec { e with graphSearch := g } spec = spec := by
    rw [searchOptSpec]
    show ({ conjunction := spec.conjunction,
            conditions := (classify { e with graphSearch := g } spec.conditions).conds }
          : SearchSpec) = spec
    rw [hconds]
  show (if (classify { e with graphSearch := g } (optimize spec).conditions).wordListCondition &&
      !(classify { e with graphSearch := g } (optimize spec).conditions).mustSearchGraph then
      nonGraphSearch { e with graphSearch := g } (searchOptSpec { e with graphSearch := g } spec)
    else _) = nonGraphSearch e (optimize spec)
  rw [show (optimize spec) = spec from rfl, hwlc, hmsg]
  simp only [Bool.not_false, Bool.and_self, if_true, reduceIte]
  rw [hopt]
  exact nonGraphSearch_graph_irrel e g spec

/-- Environment for the dispatch counterexample: A and B are acceptable and
the abstract word-graph search returns B. -/
def negEnv : Env :=
  ⟨fun w => decide (w = "A" ∨ w = "B"), fun _ => ["B"], fun _ => 0,
   fun _ => none, fun _ => 0, fun _ => SearchSet.UnknownSearchSet, ""⟩

/-- A spec whose only condition is a NEGATED InWordList condition. -/
def negSpec : SearchSpec := ⟨true, [⟨CondType.InWordList, true, "A", 0, 0⟩]⟩

/-- C2 counterexample: with a single negated InWordList condition the search
takes the graph path and returns the post-filtered graph results, not the
nonGraphSearch result, refuting the claim for negated InWordList
conditions. -/
theorem c2_counterexample :
    search negEnv negSpec false = ["B"] ∧
    nonGraphSearch negEnv (optimize negSpec) = ["A"] ∧
    ¬ (["B"] : List String) = ["A"] := by
  refine ⟨by decide, by decide, by decide⟩

/-- C2 witness: the amended dispatch applied to a concrete one-condition
spec, with a graph search that would return Z if it were consulted. -/
theorem c2_amended_witness :
    search { negEnv with graphSearch := fun _ => ["Z"] }
      ⟨true, [⟨CondType.InWordList, false, "A B", 0, 0⟩]⟩ true =
    nonGraphSearch negEnv
      (optimize ⟨true, [⟨CondType.InWordList, false, "A B", 0, 0⟩]⟩) :=
  c2_amended_dispatch negEnv (fun _ => ["Z"])
    ⟨true, [⟨CondType.InWordList, false, "A B", 0, 0⟩]⟩ true
    (by
      intro c hc
      simp only [List.mem_singleton] at hc
      subst hc
      exact Or.inl ⟨rfl, rfl⟩)
    ⟨⟨CondType.InWordList, false, "A B", 0, 0⟩, by simp, rfl⟩

/-- The range bookkeeping of the set-algebra loop projects onto `ngsRange`:
when `ngsRange` reports an empty overlap the loop exits early, and when the
loop completes, its final range is the one `ngsRange` computes. -/
theorem ngsLoop_range (e : Env) (conj : Bool) :
    ∀ (conds : List SearchCondition) (mn mx : Int) (n : Nat) (fin : List String),
      (ngsRange conds (mn, mx) = none → ngsLoop e conj conds mn mx n fin = none) ∧
      (∀ mn2 mx2 fin2, ngsLoop e conj conds mn mx n fin = some (mn2, mx2, fin2) →
        ngsRange conds (mn, mx) = some (mn2, mx2)) := by
  intro conds
  induction conds with
  | nil =>
    intro mn mx n fin
    constructor
    · intro h
      simp [ngsRange] at h
    · intro mn2 mx2 fin2 h
      simp only [ngsLoop, Option.some.injEq, Prod.mk.injEq] at h
      simp [ngsRange, h.1, h.2.1]
  | cons c rest ih =>
    intro mn mx n fin
    cases hct : c.type
    case NumAnagrams =>
      refine ⟨?_, ?_⟩
      · intro h
        simp only [ngsRange, hct] at h
        simp only [ngsLoop, hct]
        split
        · rfl
        · rename_i hcnd
          rw [if_neg hcnd] at h
          exact (ih _ _ _ _).1 h
      · intro mn2 mx2 fin2 h
        simp only [ngsLoop, hct] at h
        simp only [ngsRange, hct]
        split at h
        · exact absurd h (by simp)
        · rename_i hcnd
          rw [if_neg hcnd]
          exact (ih _ _ _ _).2 _ _ _ h
    case InWordList =>
      refine ⟨?_, ?_⟩
      · intro h
        simp only [ngsRange, hct] at h
        simp only [ngsLoop, hct]
        split
        · exact (ih _ _ _ _).1 h
        · split
          · split
            · rfl
            · exact (ih _ _ _ _).1 h
          · exact (ih _ _ _ _).1 h
      · intro mn2 mx2 fin2 h
        simp only [ngsLoop, hct] at h
        simp only [ngsRange, hct]
        split at h
        · exact (ih _ _ _ _).2 _ _ _ h
        · split at h
          · split at h
            · exact absurd h (by simp)
            · exact (ih _ _ _ _).2 _ _ _ h
          · exact (ih _ _ _ _).2 _ _ _ h
    all_goals
      refine ⟨?_, ?_⟩
      · intro h
        simp only [ngsRange, hct] at h
        simp only [ngsLoop, hct]
        exact (ih _ _ _ _).1 h
      · intro mn2 mx2 fin2 h
        simp only [ngsLoop, hct] at h
        simp only [ngsRange, hct]
        exact (ih _ _ _ _).2 _ _ _ h

/-- C5 amended: the loop does not intersect the NumAnagrams ranges — it
replaces the running admissible range by each NumAnagrams condition's own
range after checking that the new range overlaps the current one (the
`ngsRange` bookkeeping); when an overlap check fails the result is empty, and
when the final range has a positive minimum or a maximum below 65535, every
word in the returned list has an anagram count inside that final range. -/
theorem c5_amended_anagram_range (e : Env) (spec : SearchSpec) :
    (ngsRange spec.conditions (0, MAX_ANAGRAMS) = none → nonGraphSearch e spec = []) ∧
    (∀ mn mx, ngsRange spec.conditions (0, MAX_ANAGRAMS) = some (mn, mx) →
      (0 < mn ∨ mx < MAX_ANAGRAMS) →
      ∀ w, w ∈ nonGraphSearch e spec →
        mn ≤ numAnagrams e w ∧ numAnagrams e w ≤ mx) := by
  constructor
  · intro h
    have h2 := (ngsLoop_range e spec.conjunction spec.conditions 0 MAX_ANAGRAMS 0 []).1 h
    simp [nonGraphSearch, h2]
  · intro mn mx h hn w hw
    rw [nonGraphSearch] at hw
    cases hl : ngsLoop e spec.conjunction spec.conditions 0 MAX_ANAGRAMS 0 [] with
    | none =>
      rw [hl] at hw
      simp at hw
    | some r =>
      obtain ⟨mn2, mx2, fin⟩ := r
      have hr := (ngsLoop_range e spec.conjunction spec.conditions 0 MAX_ANAGRAMS 0 []).2
        mn2 mx2 fin hl
      rw [h] at hr
      simp only [Option.some.injEq, Prod.mk.injEq] at hr
      obtain ⟨hmn, hmx⟩ := hr
      subst hmn
      subst hmx
      by_cases hfin : fin = []
      · subst hfin
        simp [hl] at hw
      · simp only [hl] at hw
        rw [if_pos ⟨hfin, hn⟩] at hw
        rw [mem_insertIfFold
          (fun x => mn ≤ e.numAnagramsMap (getAlphagram x) ∧
            e.numAnagramsMap (getAlphagram x) ≤ mx) fin [] w] at hw
        rcases hw with ⟨_, hP⟩ | hw
        · exact hP
        · exact absurd hw (List.not_mem_nil w)

/-- Environment for the anagram-range counterexample: FOO is acceptable and
its alphagram has 15 recorded anagrams. -/
def rangeEnv : Env :=
  ⟨fun w => decide (w = "FOO"), fun _ => [], fun a => if a = "FOO" then 15 else 0,
   fun _ => none, fun _ => 0, fun _ => SearchSet.UnknownSearchSet, ""⟩

/-- A spec with NumAnagrams ranges [5,10] then [0,20] and an InWordList
condition listing FOO. -/
def rangeSpec : SearchSpec :=
  ⟨true, [⟨CondType.NumAnagrams, false, "", 5, 10⟩,
          ⟨CondType.NumAnagrams, false, "", 0, 20⟩,
          ⟨CondType.InWordList, false, "FOO", 0, 0⟩]⟩

/-- C5 counterexample: the intersection of the ranges [0,65535], [5,10] and
[0,20] is [5,10], yet nonGraphSearch returns FOO whose anagram count 15 lies
outside [5,10] — the second NumAnagrams condition REPLACED the range instead
of narrowing it. -/
theorem c5_counterexample :
    nonGraphSearch rangeEnv rangeSpec = ["FOO"] ∧
    numAnagrams rangeEnv "FOO" = 15 ∧
    ¬ ((5 : Int) ≤ 15 ∧ (15 : Int) ≤ 10) := by
  refine ⟨by decide, by decide, by decide⟩

/-- C5 witness: the amended statement evaluated on a concrete spec whose
final range is [1,20]. -/
theorem c5_amended_witness :
    (1 : Int) ≤ numAnagrams rangeEnv "FOO" ∧ numAnagrams rangeEnv "FOO" ≤ 20 :=
  (c5_amended_anagram_range rangeEnv
    ⟨true, [⟨CondType.NumAnagrams, false, "", 1, 20⟩,
            ⟨CondType.InWordList, false, "FOO", 0, 0⟩]⟩).2 1 20
    (by decide) (by decide) "FOO" (by decide)

theorem insertChar_length (c : Char) (l : List Char) :
    (insertChar c l).length = l.length + 1 := by
  induction l with
  | nil => rfl
  | cons d ds ih =>
    rw [insertChar]
    split
    · simp
    · simp [ih]

theorem sortChars_length (l : List Char) : (sortChars l).length = l.length := by
  induction l with
  | nil => rfl
  | cons c cs ih =>
    rw [sortChars, insertChar_length, ih]
    simp

/-- The alphagram of a word has the word's length. -/
theorem getAlphagram_data_length (w : String) :
    (getAlphagram w).data.length = w.data.length :=
  sortChars_length w.data

/-- The code's bounded walk agrees with the claim's alignment predicate
whenever the alphagram is exactly two characters longer than the remaining
stem (counting the missing letters already seen): reaching the end of the
stem with at most two missing letters. -/
theorem typeOneEightWalk_align (as : List Char) :
    ∀ (ss : List Char) (m : Nat), as.length + m = ss.length + 2 →
      (typeOneEightWalk as ss m = true ↔
        ∃ k, alignWalk as ss = some k ∧ m + k ≤ 2) := by
  induction as with
  | nil =>
    intro ss m h
    cases ss with
    | nil =>
      have hm : m = 2 := by simpa using h
      subst hm
      constructor
      · intro _
        exact ⟨0, rfl, by omega⟩
      · intro _
        decide
    | cons s ss2 =>
      have hm : 3 ≤ m := by
        simp at h
        omega
      constructor
      · intro hl
        have h2 : m ≤ 2 := of_decide_eq_true hl
        omega
      · rintro ⟨k, hk, _⟩
        cases hk
  | cons a as2 ih =>
    intro ss m h
    cases ss with
    | nil =>
      constructor
      · intro hl
        have h2 : m ≤ 2 := of_decide_eq_true hl
        exact ⟨0, rfl, by omega⟩
      · rintro ⟨k, hk, hk2⟩
        injection hk with hk0
        subst hk0
        exact decide_eq_true (by omega)
    | cons s ss2 =>
      by_cases has : a = s
      · subst has
        simp only [typeOneEightWalk, alignWalk, eq_self_iff_true, if_true]
        apply ih ss2 m
        simp at h
        omega
      · simp only [typeOneEightWalk, alignWalk, if_neg has]
        by_cases hm : 2 < m + 1
        · rw [if_pos hm]
          constructor
          · intro hfalse
            cases hfalse
          · rintro ⟨k, hk1, hk2⟩
            cases ha : alignWalk as2 (s :: ss2) with
            | none =>
              rw [ha] at hk1
              cases hk1
            | some k2 =>
              rw [ha] at hk1
              simp at hk1
              omega
        · rw [if_neg hm]
          have h2 : as2.length + (m + 1) = (s :: ss2).length + 2 := by
            simp at h ⊢
            omega
          rw [ih (s :: ss2) (m + 1) h2]
          constructor
          · rintro ⟨k, hk1, hk2⟩
            refine ⟨k + 1, ?_, by omega⟩
            rw [hk1]
            rfl
          · rintro ⟨k, hk1, hk2⟩
            cases ha : alignWalk as2 (s :: ss2) with
            | none =>
              rw [ha] at hk1
              cases hk1
            | some k2 =>
              rw [ha] at hk1
              simp at hk1
              exact ⟨k2, rfl, by omega⟩

/-- C7: isSetMember(w, SetTypeOneEights) holds iff w has length 8, the
length-6 stem-alphagram bucket exists, and some stored stem alphagram aligns
left to right against the word's alphagram, reaching its end with at most 2
missing letters.  The hypothesis records the importStems invariant that the
length-6 bucket only stores alphagrams of length-6 stems. -/
theorem c7_typeOneEights (e : Env) (w : String)
    (hb : ∀ sa ∈ (e.stemAlphagrams 6).getD [], sa.data.length = 6) :
    isSetMember e w SearchSet.SetTypeOneEights = true ↔
      (w.data.length = 8 ∧ (e.stemAlphagrams 6).isSome = true ∧
        ∃ sa ∈ (e.stemAlphagrams 6).getD [],
          ∃ k, alignWalk (getAlphagram w).data sa.data = some k ∧ k ≤ 2) := by
  by_cases hlen : w.data.length = 8
  · have h62 : w.data.length - 2 = 6 := by omega
    cases hsa : e.stemAlphagrams 6 with
    | none =>
      simp [isSetMember, hlen, h62, hsa]
    | some alphaset =>
      simp only [isSetMember, hlen, if_pos, h62, hsa, if_true, eq_self_iff_true,
        Option.getD_some, Option.isSome_some, true_and]
      rw [List.any_eq_true]
      constructor
      · rintro ⟨sa, hmem, hwalk⟩
        have hlen6 : sa.data.length = 6 := hb sa (by rw [hsa]; exact hmem)
        have halign := (typeOneEightWalk_align (getAlphagram w).data sa.data 0
          (by rw [getAlphagram_data_length, hlen, hlen6])).mp hwalk
        obtain ⟨k, hk1, hk2⟩ := halign
        exact ⟨sa, hmem, k, hk1, by omega⟩
      · rintro ⟨sa, hmem, k, hk1, hk2⟩
        have hlen6 : sa.data.length = 6 := hb sa (by rw [hsa]; exact hmem)
        refine ⟨sa, hmem, ?_⟩
        rw [typeOneEightWalk_align (getAlphagram w).data sa.data 0
          (by rw [getAlphagram_data_length, hlen, hlen6])]
        exact ⟨k, hk1, by omega⟩
  · simp only [isSetMember]
    rw [if_neg hlen]
    simp only [Bool.false_eq_true, false_iff]
    intro hf
    exact absurd hf.1 hlen

/-- Environment for the type-one-eight witness: the length-6 stem alphagram
bucket holds ACENRT. -/
def stemEnv : Env :=
  ⟨fun _ => false, fun _ => [], fun _ => 0,
   fun n => if n = 6 then some ["ACENRT"] else none, fun _ => 0,
   fun _ => SearchSet.UnknownSearchSet, ""⟩

/-- C7 witness: CANTERXY (alphagram ACENRTXY) aligns against stem alphagram
ACENRT with 0 missing letters, so it is a type-one eight. -/
theorem c7_witness :
    isSetMember stemEnv "CANTERXY" SearchSet.SetTypeOneEights = true :=
  (c7_typeOneEights stemEnv "CANTERXY" (by decide)).mpr
    ⟨by decide, by decide, "ACENRT", by decide, 0, by decide, by decide⟩

/-- One call to the link resolver performs at most maxDepth + 1
substitutions: one per budget level plus the final bare-word replacement when
the budget reaches zero. -/
theorem replaceDefinitionLinksAux_count_le (dt : DefTable) :
    ∀ (maxDepth : Nat) (d : String) (uf : Bool),
      (replaceDefinitionLinksAux dt d maxDepth uf).2 ≤ maxDepth + 1 := by
  intro maxDepth
  induction maxDepth with
  | zero =>
    intro d uf
    rw [replaceDefinitionLinksAux]
    cases h : firstLinkToken d with
    | none => simp
    | some t =>
      obtain ⟨i, w, p, len, isF⟩ := t
      simp
  | succ n ih =>
    intro d uf
    rw [replaceDefinitionLinksAux]
    cases h : firstLinkToken d with
    | none => simp
    | some t =>
      obtain ⟨i, w, p, len, isF⟩ := t
      simp only
      exact Nat.succ_le_succ (ih _ _)

/-- C8 amended: link resolution always terminates, and a resolution run with
the production budget MAX_DEFINITION_LINKS = 3 (as getDefinition invokes it
on each stored sense) performs at most 4 substitutions — three budgeted link
resolutions plus one final bare-word replacement when the budget is
exhausted — even when the stored definitions reference each other in a
cycle. -/
theorem c8_amended_link_budget (dt : DefTable) (d : String) (uf : Bool) :
    replaceDefinitionLinksCount dt d MAX_DEFINITION_LINKS uf ≤ MAX_DEFINITION_LINKS + 1 :=
  replaceDefinitionLinksAux_count_le dt MAX_DEFINITION_LINKS d uf

/-- Definition table with a reference cycle: A's sense links to B and B's
sense links to A. -/
def cycleDefs : DefTable :=
  [("A", [("n", "[n] \x7bB=n\x7d")]), ("B", [("n", "[n] \x7bA=n\x7d")])]

/-- C8 counterexample: resolving A's stored sense with the production budget
of 3 performs 4 link substitutions, not at most 3 — the depth-0 call still
replaces the remaining token by the bare word. -/
theorem c8_counterexample :
    replaceDefinitionLinksCount cycleDefs "[n] \x7bB=n\x7d"
      MAX_DEFINITION_LINKS false = 4 ∧ ¬ (4 ≤ 3) := by
  refine ⟨by decide, by decide⟩

/-- WordEngine::numAnagrams read against the import-side engine state. -/
def engineNumAnagrams (st : Engine) (word : String) : Int :=
  st.numAnagramsMap (getAlphagram word)

/-- A sequence of importTextFile calls: for each call, the lines of the file,
the lexicon name and the load-definitions flag. -/
def runImports (calls : List (List String × String × Bool)) (st : Engine) : Engine :=
  calls.foldl (fun s c => (importTextFile s c.1 c.2.1 c.2.2).1) st

/-- The words contributed by a sequence of import calls, in order (with
duplicates, exactly as the files present them). -/
def importedWords (calls : List (List String × String × Bool)) : List String :=
  (calls.map (fun c => c.1.filterMap parseLine)).flatten

/-- Invariant tying an engine state to the list of words imported so far: the
graph contains exactly the imported words, and each alphagram's stored count
is the number of distinct imported words with that alphagram. -/
def importInv (st : Engine) (imp : List String) : Prop :=
  (∀ v, containsWordG st.graphWords v = true ↔ v ∈ imp) ∧
  (∀ a, st.numAnagramsMap a =
    ((imp.toFinset.filter (fun v => getAlphagram v = a)).card : Int))

theorem importInv_initial : importInv initialEngine [] := by
  constructor
  · intro v
    simp [initialEngine, containsWordG]
  · intro a
    simp [initialEngine]

theorem importInv_step (loadDefs : Bool) (st : Engine) (imp : List String)
    (line : String) (h : importInv st imp) :
    importInv (importTextFileStep loadDefs st line)
      (imp ++ (parseLine line).toList) := by
  obtain ⟨h1, h2⟩ := h
  cases hp : parseLine line with
  | none =>
    constructor
    · intro v
      simp [importTextFileStep, hp, h1 v]
    · intro a
      simp [importTextFileStep, hp, h2 a]
  | some word =>
    by_cases hc : containsWordG st.graphWords word = true
    · have hwi : word ∈ imp := (h1 word).mp hc
      have hset : (imp ++ (some word).toList).toFinset = imp.toFinset := by
        ext x
        simp only [Option.toList, List.mem_toFinset, List.mem_append,
          List.mem_singleton]
        constructor
        · rintro (hx | hx)
          · exact hx
          · subst hx
            exact hwi
        · exact fun hx => Or.inl hx
      constructor
      · intro v
        have hg : (importTextFileStep loadDefs st line).graphWords = st.graphWords := by
          cases loadDefs <;> simp [importTextFileStep, hp, hc, addWord]
        rw [hg, h1 v]
        simp only [Option.toList, List.mem_append, List.mem_singleton]
        constructor
        · exact fun hv => Or.inl hv
        · rintro (hv | hv)
          · exact hv
          · subst hv
            exact hwi
      · intro a
        have hm : (importTextFileStep loadDefs st line).numAnagramsMap =
            st.numAnagramsMap := by
          cases loadDefs <;> simp [importTextFileStep, hp, hc]
        rw [hm, h2 a, hset]
    · have hwni : ¬ word ∈ imp := fun hin => hc ((h1 word).mpr hin)
      have hset : (imp ++ (some word).toList).toFinset = insert word imp.toFinset := by
        ext x
        simp only [Option.toList, List.mem_toFinset, List.mem_append,
          List.mem_singleton, Finset.mem_insert]
        tauto
      constructor
      · intro v
        have hg : (importTextFileStep loadDefs st line).graphWords =
            st.graphWords ++ [word] := by
          cases loadDefs <;> simp [importTextFileStep, hp, hc, addWord]
        rw [hg]
        have h1v : v ∈ st.graphWords ↔ v ∈ imp := by
          rw [← h1 v]
          simp [containsWordG]
        simp only [containsWordG, decide_eq_true_eq, List.mem_append,
          List.mem_singleton, Option.toList]
        rw [h1v]
      · intro a
        have hm : (importTextFileStep loadDefs st line).numAnagramsMap =
            (fun x => if x = getAlphagram word then st.numAnagramsMap x + 1
              else st.numAnagramsMap x) := by
          cases loadDefs <;> simp [importTextFileStep, hp, hc]
        rw [hm, hset]
        show (if a = getAlphagram word then st.numAnagramsMap a + 1
          else st.numAnagramsMap a) = _
        by_cases ha : a = getAlphagram word
        · rw [if_pos ha, h2 a, Finset.filter_insert, if_pos ha.symm,
            Finset.card_insert_of_not_mem]
          · push_cast
            ring
          · intro hin
            exact hwni (List.mem_toFinset.mp (Finset.mem_of_mem_filter word hin))
        · rw [if_neg ha, h2 a, Finset.filter_insert, if_neg (fun hh => ha hh.symm)]

theorem importInv_lines (loadDefs : Bool) :
    ∀ (lines : List String) (st : Engine) (imp : List String), importInv st imp →
      importInv (lines.foldl (importTextFileStep loadDefs) st)
        (imp ++ lines.filterMap parseLine) := by
  intro lines
  induction lines with
  | nil =>
    intro st imp h
    simpa using h
  | cons l rest ih =>
    intro st imp h
    have hstep := importInv_step loadDefs st imp l h
    have hrec := ih (importTextFileStep loadDefs st l) (imp ++ (parseLine l).toList) hstep
    cases hp : parseLine l with
    | none =>
      rw [hp] at hrec
      simpa [List.filterMap_cons, hp] using hrec
    | some w =>
      rw [hp] at hrec
      simpa [List.filterMap_cons, hp, List.append_assoc] using hrec

theorem importInv_runImports :
    ∀ (calls : List (List String × String × Bool)) (st : Engine) (imp : List String),
      importInv st imp →
      importInv (runImports calls st) (imp ++ importedWords calls) := by
  intro calls
  induction calls with
  | nil =>
    intro st imp h
    simpa [runImports, importedWords] using h
  | cons c rest ih =>
    intro st imp h
    have h1 := importInv_lines c.2.2 c.1 st imp h
    have h2 : importInv (importTextFile st c.1 c.2.1 c.2.2).1
        (imp ++ c.1.filterMap parseLine) := h1
    have h3 := ih (importTextFile st c.1 c.2.1 c.2.2).1
      (imp ++ c.1.filterMap parseLine) h2
    simpa [runImports, importedWords, List.append_assoc] using h3

/-- C4: after any sequence of importTextFile imports starting from a fresh
engine (files may contain duplicate lines), the stored anagram count of any
word's alphagram equals the number of DISTINCT imported words sharing that
alphagram — and hence 0 when no such word was imported. -/
theorem c4_numAnagrams_distinct_counts
    (calls : List (List String × String × Bool)) (w : String) :
    engineNumAnagrams (runImports calls initialEngine) w =
      (((importedWords calls).toFinset.filter
        (fun v => getAlphagram v = getAlphagram w)).card : Int) := by
  have hinv := importInv_runImports calls initialEngine [] importInv_initial
  simp only [List.nil_append] at hinv
  exact hinv.2 (getAlphagram w)

/-- C10: when importStems runs and a stem bucket for the parsed length
already exists, the call appends the parsed stems to the existing stem list
and unions the parsed alphagrams into the existing alphagram set (so every
previously present stem and stem alphagram is still present), and buckets of
every other length are untouched. -/
theorem c10_importStems_append (st : Engine) (lines : List String)
    (ws0 as0 : List String)
    (hs : st.stems (stemParseOf lines).length = some ws0)
    (ha : st.stemAlphagrams (stemParseOf lines).length = some as0) :
    ((importStems st lines).1).stems (stemParseOf lines).length =
      some (ws0 ++ (stemParseOf lines).words) ∧
    (∀ x, (x ∈ (((importStems st lines).1).stemAlphagrams
        (stemParseOf lines).length).getD [] ↔
      x ∈ as0 ∨ x ∈ (stemParseOf lines).alphagrams)) ∧
    (∀ k, ¬ k = (stemParseOf lines).length →
      ((importStems st lines).1).stems k = st.stems k ∧
      ((importStems st lines).1).stemAlphagrams k = st.stemAlphagrams k) := by
  refine ⟨?_, ?_, ?_⟩
  · simp [importStems, hs]
  · intro x
    simp only [importStems, hs, ha, if_pos, eq_self_iff_true, if_true,
      Option.getD_some]
    rw [mem_insertFold]
    tauto
  · intro k hk
    constructor
    · simp [importStems, hs, hk]
    · simp [importStems, hs, hk]

/-- An engine whose length-3 stem bucket holds CAT with alphagram ACT. -/
def stemEngine : Engine :=
  ⟨[], [], fun _ => 0, "",
   fun k => if k = 3 then some (["CAT"]) else none,
   fun k => if k = 3 then some (["ACT"]) else none, []⟩

/-- C10 witness: importing the stems DOG and ACT (BIRD is discarded for its
length) into the engine with an existing length-3 bucket. -/
theorem c10_witness :
    ((importStems stemEngine ["DOG", "BIRD", "ACT"]).1).stems
        (stemParseOf ["DOG", "BIRD", "ACT"]).length =
      some (["CAT"] ++ (stemParseOf ["DOG", "BIRD", "ACT"]).words) ∧
    (∀ x, (x ∈ (((importStems stemEngine ["DOG", "BIRD", "ACT"]).1).stemAlphagrams
        (stemParseOf ["DOG", "BIRD", "ACT"]).length).getD [] ↔
      x ∈ (["ACT"] : List String) ∨
      x ∈ (stemParseOf ["DOG", "BIRD", "ACT"]).alphagrams)) ∧
    (∀ k, ¬ k = (stemParseOf ["DOG", "BIRD", "ACT"]).length →
      ((importStems stemEngine ["DOG", "BIRD", "ACT"]).1).stems k =
        stemEngine.stems k ∧
      ((importStems stemEngine ["DOG", "BIRD", "ACT"]).1).stemAlphagrams k =
        stemEngine.stemAlphagrams k) :=
  c10_importStems_append stemEngine ["DOG", "BIRD", "ACT"] ["CAT"] ["ACT"]
    (by decide) (by decide)

/-!  Lemmas about the probability map (QMap) of WordEngine::search. -/

theorem mem_qmapInsert (k v : String) :
    ∀ (l : List (String × String)) (p : String × String),
      p ∈ qmapInsert k v l → p = (k, v) ∨ p ∈ l := by
  intro l
  induction l with
  | nil =>
    intro p hp
    simpa [qmapInsert] using hp
  | cons kv rest ih =>
    intro p hp
    obtain ⟨k2, v2⟩ := kv
    rw [qmapInsert] at hp
    split at hp
    · rcases List.mem_cons.mp hp with hp2 | hp2
      · exact Or.inl hp2
      · exact Or.inr hp2
    · split at hp
      · rcases List.mem_cons.mp hp with hp2 | hp2
        · exact Or.inl hp2
        · exact Or.inr (List.mem_cons_of_mem _ hp2)
      · rcases List.mem_cons.mp hp with hp2 | hp2
        · exact Or.inr (by rw [hp2]; exact List.mem_cons_self _ _)
        · rcases ih p hp2 with hp3 | hp3
          · exact Or.inl hp3
          · exact Or.inr (List.mem_cons_of_mem _ hp3)

theorem keys_qmapInsert (k v a : String) :
    ∀ (l : List (String × String)),
      a ∈ (qmapInsert k v l).map Prod.fst ↔ a = k ∨ a ∈ l.map Prod.fst := by
  intro l
  induction l with
  | nil => simp [qmapInsert]
  | cons kv rest ih =>
    obtain ⟨k2, v2⟩ := kv
    by_cases h1 : strLt k k2 = true
    · rw [qmapInsert, if_pos h1]
      simp only [List.map_cons, List.mem_cons]
    · by_cases h2 : k = k2
      · rw [qmapInsert, if_neg h1, if_pos h2]
        simp only [List.map_cons, List.mem_cons]
        constructor
        · rintro (h | h)
          · exact Or.inl h
          · exact Or.inr (Or.inr h)
        · rintro (h | h | h)
          · exact Or.inl h
          · exact Or.inl (by rw [h, h2])
          · exact Or.inr h
      · rw [qmapInsert, if_neg h1, if_neg h2]
        simp only [List.map_cons, List.mem_cons, ih]
        tauto

theorem qmapInsert_perm_fresh (k v : String) :
    ∀ (l : List (String × String)), ¬ k ∈ l.map Prod.fst →
      (qmapInsert k v l).Perm ((k, v) :: l) := by
  intro l
  induction l with
  | nil =>
    intro _
    simp [qmapInsert]
  | cons kv rest ih =>
    intro hk
    obtain ⟨k2, v2⟩ := kv
    have hkk2 : ¬ k = k2 := by
      intro hh
      exact hk (by simp [hh])
    have hkrest : ¬ k ∈ rest.map Prod.fst := by
      intro hh
      exact hk (by simp [hh])
    by_cases h1 : strLt k k2 = true
    · rw [qmapInsert, if_pos h1]
    · rw [qmapInsert, if_neg h1, if_neg hkk2]
      exact ((ih hkrest).cons _).trans (List.Perm.swap _ _ _)

theorem qmapInsert_sorted (k v : String) :
    ∀ (l : List (String × String)),
      l.Pairwise (fun p q => strLt p.1 q.1 = true) →
      (qmapInsert k v l).Pairwise (fun p q => strLt p.1 q.1 = true) := by
  intro l
  induction l with
  | nil =>
    intro _
    simp [qmapInsert]
  | cons kv rest ih =>
    intro hp
    obtain ⟨k2, v2⟩ := kv
    rw [List.pairwise_cons] at hp
    obtain ⟨hhead, hrest⟩ := hp
    by_cases h1 : strLt k k2 = true
    · rw [qmapInsert, if_pos h1, List.pairwise_cons]
      constructor
      · intro q hq
        rcases List.mem_cons.mp hq with hq2 | hq2
        · rw [hq2]
          exact h1
        · exact strLt_trans _ _ _ h1 (hhead q hq2)
      · rw [List.pairwise_cons]
        exact ⟨hhead, hrest⟩
    · by_cases h2 : k = k2
      · rw [qmapInsert, if_neg h1, if_pos h2, List.pairwise_cons]
        constructor
        · intro q hq
          rw [h2]
          exact hhead q hq
        · exact hrest
      · have hk2k : strLt k2 k = true := by
          rcases strLt_trich k k2 with h | h | h
          · exact absurd h h1
          · exact absurd h h2
          · exact h
        rw [qmapInsert, if_neg h1, if_neg h2, List.pairwise_cons]
        constructor
        · intro q hq
          rcases mem_qmapInsert k v rest q hq with hq2 | hq2
          · rw [hq2]
            exact hk2k
          · exact hhead q hq2
        · exact ih hrest

theorem probFold_sorted (e : Env) :
    ∀ (ws : List String) (m : List (String × String)),
      m.Pairwise (fun p q => strLt p.1 q.1 = true) →
      (ws.foldl (fun m w => qmapInsert (probKey e w) w m) m).Pairwise
        (fun p q => strLt p.1 q.1 = true) := by
  intro ws
  induction ws with
  | nil =>
    intro m h
    exact h
  | cons w ws2 ih =>
    intro m h
    exact ih _ (qmapInsert_sorted _ _ m h)

theorem probFold_inv (e : Env) :
    ∀ (ws : List String) (m : List (String × String)),
      (∀ p ∈ m, p.1 = probKey e p.2) →
      ∀ p ∈ ws.foldl (fun m w => qmapInsert (probKey e w) w m) m,
        p.1 = probKey e p.2 := by
  intro ws
  induction ws with
  | nil =>
    intro m h p hp
    exact h p hp
  | cons w ws2 ih =>
    intro m h p hp
    refine ih _ ?_ p hp
    intro q hq
    rcases mem_qmapInsert _ _ m q hq with hq2 | hq2
    · rw [hq2]
    · exact h q hq2

theorem probFold_perm (e : Env) :
    ∀ (ws : List String) (m : List (String × String)),
      (ws.map (probKey e)).Nodup →
      (∀ w ∈ ws, ¬ probKey e w ∈ m.map Prod.fst) →
      ((ws.foldl (fun m w => qmapInsert (probKey e w) w m) m).map Prod.snd).Perm
        (ws ++ m.map Prod.snd) := by
  intro ws
  induction ws with
  | nil =>
    intro m _ _
    simp
  | cons w ws2 ih =>
    intro m hnodup hfresh
    rw [List.map_cons, List.nodup_cons] at hnodup
    have hwfresh : ¬ probKey e w ∈ m.map Prod.fst := hfresh w (by simp)
    have hfresh2 : ∀ x ∈ ws2,
        ¬ probKey e x ∈ (qmapInsert (probKey e w) w m).map Prod.fst := by
      intro x hx hmem
      rcases (keys_qmapInsert _ _ _ m).mp hmem with hh | hh
      · exact hnodup.1 (hh ▸ List.mem_map_of_mem (probKey e) hx)
      · exact hfresh x (by simp [hx]) hh
    have hperm1 := ih (qmapInsert (probKey e w) w m) hnodup.2 hfresh2
    have hperm2 : ((qmapInsert (probKey e w) w m).map Prod.snd).Perm
        (w :: m.map Prod.snd) := by
      have hq := qmapInsert_perm_fresh (probKey e w) w m hwfresh
      simpa using hq.map Prod.snd
    rw [List.foldl_cons]
    refine hperm1.trans ?_
    refine (List.Perm.append_left ws2 hperm2).trans ?_
    exact List.perm_middle

theorem probMapValues_perm (e : Env) (ws : List String)
    (h : (ws.map (probKey e)).Nodup) :
    (probMapValues e ws).Perm ws := by
  have hp := probFold_perm e ws [] h (by intro w _; simp)
  simpa [probMapValues] using hp

theorem probMapValues_sorted (e : Env) (ws : List String) :
    (probMapValues e ws).Pairwise
      (fun a b => strLt (probKey e a) (probKey e b) = true) := by
  have hs := probFold_sorted e ws [] (by simp)
  have hinv := probFold_inv e ws [] (by intro p hp; simp at hp)
  rw [probMapValues, List.pairwise_map]
  refine hs.imp_of_mem ?_
  intro p q hp hq hlt
  rw [← hinv p hp, ← hinv q hq]
  exact hlt

theorem padNine_length (n : Nat) : (padNine n).length = 9 := by
  simp [padNine]

theorem probKey_inj_on_upper (e : Env) (w1 w2 : String)
    (h : probKey e w1 = probKey e w2) : toUpperS w1 = toUpperS w2 := by
  have hd : padNine (10 ^ 9 - 1 - e.numCombinations (toUpperS w1)) ++ (toUpperS w1).data =
      padNine (10 ^ 9 - 1 - e.numCombinations (toUpperS w2)) ++ (toUpperS w2).data :=
    congrArg String.data h
  have hlen : (padNine (10 ^ 9 - 1 - e.numCombinations (toUpperS w1))).length =
      (padNine (10 ^ 9 - 1 - e.numCombinations (toUpperS w2))).length := by
    rw [padNine_length, padNine_length]
  exact String.ext (List.append_inj_right hd hlen)

theorem probKey_nodup (e : Env) (ws : List String)
    (h : (ws.map toUpperS).Nodup) : (ws.map (probKey e)).Nodup := by
  have hinj : ∀ x ∈ ws, ∀ y ∈ ws, probKey e x = probKey e y → x = y := by
    intro x hx y hy hxy
    have hup := probKey_inj_on_upper e x y hxy
    exact List.inj_on_of_nodup_map h hx hy hup
  exact List.Nodup.map_on hinj (List.Nodup.of_map toUpperS h)

theorem qlistMid_drop_take (l : List String) (pos : Nat) (len : Int)
    (h : 0 ≤ len) :
    qlistMid l pos len = (l.drop pos).take len.toNat := by
  rw [qlistMid]
  split
  · rename_i hcond
    rcases hcond with hneg | hover
    · exact absurd hneg (not_lt.mpr h)
    · have h1 : (l.drop pos).length ≤ ((l.length : Int) - (pos : Int)).toNat := by
        rw [List.length_drop]
        omega
      have h2 : (l.drop pos).length ≤ len.toNat := by
        rw [List.length_drop]
        omega
      rw [List.take_of_length_le h1, List.take_of_length_le h2]
  · rfl

/-- C3 amended: on the graph path (search is not dispatched to the
set-algebra path), when the (last) ProbabilityOrder condition carries max > 0
and min ≤ max + 1, and the combination counts stay below 10^9 (so the radix
is a genuine nine-digit field), search orders the post-filter survivors by
the textual key (nine zero-padded digits of 10^9 - 1 - combinations, then the
uppercased word) and returns the 1-based inclusive slice [min, max] of that
ordering with min clamped up to 1; when min exceeds the survivor count the
result is empty (the slice is then empty as well). -/
theorem c3_amended_probability_slice (e : Env) (spec : SearchSpec)
    (h1 : ((classify e (optimize spec).conditions).wordListCondition &&
      !(classify e (optimize spec).conditions).mustSearchGraph) = false)
    (h2 : 0 < (classify e (optimize spec).conditions).probRangeMax)
    (h3 : (classify e (optimize spec).conditions).probRangeMin ≤
      (classify e (optimize spec).conditions).probRangeMax + 1)
    (h4 : ((graphPathWordList e spec).map toUpperS).Nodup)
    (h5 : ∀ w, e.numCombinations w < 10 ^ 9) :
    ∃ ordered : List String,
      ordered.Perm (graphPathWordList e spec) ∧
      ordered.Pairwise (fun a b => strLt (probKey e a) (probKey e b) = true) ∧
      search e spec false =
        (ordered.drop
          (((if (classify e (optimize spec).conditions).probRangeMin ≤ 0 then 1
             else (classify e (optimize spec).conditions).probRangeMin) - 1).toNat)).take
          ((classify e (optimize spec).conditions).probRangeMax -
            (if (classify e (optimize spec).conditions).probRangeMin ≤ 0 then 1
             else (classify e (optimize spec).conditions).probRangeMin) + 1).toNat := by
  refine ⟨probMapValues e (graphPathWordList e spec),
    probMapValues_perm e _ (probKey_nodup e _ h4),
    probMapValues_sorted e _, ?_⟩
  have hlen : (probMapValues e (graphPathWordList e spec)).length =
      (graphPathWordList e spec).length :=
    (probMapValues_perm e _ (probKey_nodup e _ h4)).length_eq
  rw [search, h1]
  simp only [Bool.false_eq_true, if_false]
  rw [applyCaps]
  simp only [Bool.false_eq_true, if_false]
  rw [applyProbability, if_pos h2]
  by_cases hsz : ((graphPathWordList e spec).length : Int) <
      (classify e (optimize spec).conditions).probRangeMin
  · rw [if_pos hsz]
    have hmin0 : ¬ (classify e (optimize spec).conditions).probRangeMin ≤ 0 := by
      omega
    rw [if_neg hmin0]
    have hdrop : (probMapValues e (graphPathWordList e spec)).drop
        (((classify e (optimize spec).conditions).probRangeMin - 1).toNat) = [] := by
      apply List.drop_eq_nil_of_le
      rw [hlen]
      omega
    rw [hdrop, List.take_nil]
  · rw [if_neg hsz]
    by_cases hm : (classify e (optimize spec).conditions).probRangeMin ≤ 0
    · rw [if_pos hm]
      rw [qlistMid_drop_take]
      omega
    · rw [if_neg hm]
      rw [qlistMid_drop_take]
      omega

/-- Environment for the probability-dispatch counterexample: A and B are the
acceptable words. -/
def probEnv : Env :=
  ⟨fun w => decide (w = "A" ∨ w = "B"), fun _ => [], fun _ => 0,
   fun _ => none, fun _ => 0, fun _ => SearchSet.UnknownSearchSet, ""⟩

/-- A spec with an InWordList condition and a ProbabilityOrder condition with
range [1,1]. -/
def probSpec : SearchSpec :=
  ⟨true, [⟨CondType.InWordList, false, "A B", 0, 0⟩,
          ⟨CondType.ProbabilityOrder, false, "", 1, 1⟩]⟩

/-- C3 counterexample: the spec contains a ProbabilityOrder condition with
positive upper bound 1, whose inclusive slice [1,1] holds at most one word,
yet search dispatches to the set-algebra path, never applies the probability
ordering, and returns both acceptable words. -/
theorem c3_counterexample :
    search probEnv probSpec false = ["A", "B"] ∧ ¬ ((2 : Nat) ≤ 1) := by
  refine ⟨by decide, by decide⟩

/-- Environment with a graph search returning DOG and CAT for the
probability witness. -/
def probGraphEnv : Env :=
  ⟨fun w => decide (w = "DOG" ∨ w = "CAT"), fun _ => ["DOG", "CAT"],
   fun _ => 0, fun _ => none, fun _ => 0,
   fun _ => SearchSet.UnknownSearchSet, ""⟩

/-- A pure ProbabilityOrder spec with range [1,2]. -/
def probGraphSpec : SearchSpec :=
  ⟨true, [⟨CondType.ProbabilityOrder, false, "", 1, 2⟩]⟩

/-- C3 witness: the amended slicing applied to the concrete graph-path
environment. -/
theorem c3_amended_witness :
    ∃ ordered : List String,
      ordered.Perm (graphPathWordList probGraphEnv probGraphSpec) ∧
      ordered.Pairwise
        (fun a b => strLt (probKey probGraphEnv a) (probKey probGraphEnv b) = true) ∧
      search probGraphEnv probGraphSpec false =
        (ordered.drop
          (((if (classify probGraphEnv (optimize probGraphSpec).conditions).probRangeMin ≤ 0
             then 1
             else (classify probGraphEnv
               (optimize probGraphSpec).conditions).probRangeMin) - 1).toNat)).take
          ((classify probGraphEnv (optimize probGraphSpec).conditions).probRangeMax -
            (if (classify probGraphEnv
                (optimize probGraphSpec).conditions).probRangeMin ≤ 0 then 1
             else (classify probGraphEnv
               (optimize probGraphSpec).conditions).probRangeMin) + 1).toNat :=
  c3_amended_probability_slice probGraphEnv probGraphSpec
    (by decide) (by decide) (by decide) (by decide)
    (fun _ => by
      show (0 : Nat) < 10 ^ 9
      decide)

end Zyzzyva
